import Mathlib

/-!
Verification of the `v9_deployment_manager` deployment reconciler.

The development shallowly embeds the two source files:
* `src/worker/worker.go` — the worker HTTP client (`V9Worker`) with its pure
  helper predicates over `StatusResponse`, and the `Status` operation's
  treatment of transport errors, HTTP status codes, and body parsing;
* `src/deployment/actionManger.go` — the `ActionManager` reconciler: the
  dirty-signal primitive and the four-phase `HandleDirtyState` pass.

Stateful Go code becomes explicit state passing: a reconciliation pass is a
function from a `PassState` (fleet contents, the `pathHashes` version index,
counters) and an `Oracle` (desired-state read result, injected RPC failures,
the activator's HEAD resolutions, the random source) to a `StepResult`,
which carries the outcome (ok / error / runtime panic) together with the
final state, including a `trace` of every worker RPC the pass issued.

The database driver, the activator, and the worker-side runtime are outside
`src/`; their behavior (desired-state list, resolved-hash return value,
mock worker fleet reflecting issued commands) is modelled from the spec
where noted.
-/

set_option maxHeartbeats 4000000

namespace V9

abbrev Err := String

abbrev Hash := String

/-- `ComponentPath`: `(user, repo)` — identifies a component independent of
version (`src/worker/worker.go`). -/
structure ComponentPath where
  user : String
  repo : String
deriving DecidableEq, Repr

/-- `ComponentID`: `(user, repo, hash)` — a specific version of a component
(`src/worker/worker.go`). -/
structure ComponentID where
  user : String
  repo : String
  hash : String
deriving DecidableEq, Repr

/-- `ComponentStats`: per-running-instance telemetry; the reconciler only
inspects `id` (`src/worker/worker.go`). -/
structure ComponentStats where
  id : ComponentID
  color : String
  statWindow : Float
  hits : Float
  avgResponseBytes : Float
  avgMsLatency : Float
  latencyPercentiles : List Float

/-- `StatusResponse`: one worker's snapshot (`src/worker/worker.go`). -/
structure StatusResponse where
  cpuUsage : Float
  memoryUsage : Float
  networkUsage : Float
  activeComponents : List ComponentStats

/-- The free function `contains` of `src/worker/worker.go`: membership of a
`ComponentID`'s `(user, repo)` in a list of paths. -/
def contains (l : List ComponentPath) (v : ComponentID) : Bool :=
  l.any fun comp => comp.repo == v.repo && comp.user == v.user

/-- `StatusResponse.FindNonactive`: the running components whose path is not
in the desired set (`src/worker/worker.go`). -/
def StatusResponse.FindNonactive (s : StatusResponse)
    (activeComponents : List ComponentPath) : List ComponentID :=
  (s.activeComponents.filter fun rc => !contains activeComponents rc.id).map (·.id)

/-- `StatusResponse.ContainsPath` (`src/worker/worker.go`). -/
def StatusResponse.ContainsPath (s : StatusResponse) (compPath : ComponentPath) : Bool :=
  s.activeComponents.any fun rc => rc.id.user == compPath.user && rc.id.repo == compPath.repo

/-- `StatusResponse.ContainsExactly` (`src/worker/worker.go`). -/
def StatusResponse.ContainsExactly (s : StatusResponse) (compID : ComponentID) : Bool :=
  s.activeComponents.any fun rc => rc.id == compID

/-- `V9Worker`: a worker addressed by URL (`src/worker/worker.go`). -/
structure V9Worker where
  URL : String

/-! ### The worker client's `Status` operation (`src/worker/worker.go`)

`http.Get` returns an error only on transport failure; an HTTP response with
any status code is returned as a value.  The body is then read and
JSON-unmarshalled.  We model the wire as an `Option HTTPResponse`:
`none` is a transport error; the body is abstracted to whether reading it
succeeds and whether it parses as a `StatusResponse`. -/

/-- Abstraction of the HTTP response body received from a worker: reading it
can fail, it can fail to unmarshal, or it parses into a `StatusResponse`. -/
inductive HTTPBody where
  | unreadable
  | malformed
  | json (s : StatusResponse)

/-- Abstraction of an `http.Response`: the status code and the body. -/
structure HTTPResponse where
  statusCode : Nat
  body : HTTPBody

/-- Whether a status code is 2xx.  The Go client never computes this; it is
needed only to state claims about non-2xx handling. -/
def is2xx (code : Nat) : Bool :=
  200 ≤ code && code < 300

/-- `V9Worker.get` (`src/worker/worker.go` lines 128–137): returns an error
exactly on transport failure; any HTTP response — whatever its status
code — is passed through. -/
def V9Worker.get (_w : V9Worker) (transport : Option HTTPResponse) :
    Except Err HTTPResponse :=
  match transport with
  | none => .error "transport error"
  | some resp => .ok resp

/-- `V9Worker.Status` (`src/worker/worker.go` lines 226–247): `get`, then
`ioutil.ReadAll`, then `json.Unmarshal`.  The status code of the response is
never inspected. -/
def V9Worker.Status (w : V9Worker) (transport : Option HTTPResponse) :
    Except Err StatusResponse :=
  match w.get transport with
  | .error e => .error e
  | .ok resp =>
    match resp.body with
    | .unreadable => .error "read error"
    | .malformed => .error "unmarshal error"
    | .json s => .ok s

/-! ### The dirty-signal primitive (`src/deployment/actionManger.go`)

`dirtyStateNotifier` is a Go channel of capacity 1; its observable state is
whether a signal is pending (`Bool`).  `NotifyComponentStateChanged` is a
`select` with a `default` branch: it fills the slot if empty and is a no-op
otherwise, never blocking. -/

/-- Capacity of the version-update queue (`src/deployment/actionManger.go`
line 13). -/
def updaterChanSize : Nat := 1024

/-- Capacity of the dirty-signal channel `dirtyStateNotifier`
(`src/deployment/actionManger.go` line 32: `make(chan struct\x7b\x7d, 1)`). -/
def dirtyChanCapacity : Nat := 1

/-- `ActionManager.NotifyComponentStateChanged`
(`src/deployment/actionManger.go` lines 76–82), as a transition on the
dirty-signal slot state (`true` = a signal is pending). -/
def NotifyComponentStateChanged (pending : Bool) : Bool :=
  if pending then pending else true

/-- The `"HEAD"` sentinel (`src/deployment/actionManger.go` line 12). -/
def headHashSentinel : Hash := "HEAD"

/-! ### The reconciliation pass as a state-passing interpreter -/

instance exceptDecEq {ε α : Type} [DecidableEq ε] [DecidableEq α] :
    DecidableEq (Except ε α) := fun x y =>
  match x, y with
  | .ok a, .ok b =>
    match decEq a b with
    | isTrue h => isTrue (h ▸ rfl)
    | isFalse h => isFalse fun hh => h (Except.ok.inj hh)
  | .error a, .error b =>
    match decEq a b with
    | isTrue h => isTrue (h ▸ rfl)
    | isFalse h => isFalse fun hh => h (Except.error.inj hh)
  | .ok _, .error _ => isFalse fun hh => Except.noConfusion hh
  | .error _, .ok _ => isFalse fun hh => Except.noConfusion hh

/-- One worker RPC issued during a pass, as recorded in the trace.  Workers
are identified by their index in the fixed `workers` slice. -/
inductive RPC where
  | status (w : Nat) (failure : Option Err)
  | activate (w : Nat) (id : ComponentID) (res : Except Err Hash)
  | deactivate (w : Nat) (id : ComponentID) (res : Except Err Unit)
deriving DecidableEq, Repr

/-- The mutable state threaded through one reconciliation pass:
the (mock) fleet contents per worker index, the `pathHashes` version index
(an association list; insertion prepends, lookup takes the newest entry,
matching Go map overwrite semantics), the RPC counter, the random-draw
counter, and the trace of issued RPCs. -/
structure PassState where
  fleet : Nat → List ComponentID
  pathHashes : List (ComponentPath × Hash)
  ctr : Nat
  rctr : Nat
  trace : List RPC

/-- Go map read `pathHashes[p]`. -/
def lookupHash : List (ComponentPath × Hash) → ComponentPath → Option Hash
  | [], _ => none
  | (q, h) :: t, p => if q = p then some h else lookupHash t p

/-- Go map write `pathHashes[p] = h` (overwrites on lookup by shadowing). -/
def insertHash (m : List (ComponentPath × Hash)) (p : ComponentPath) (h : Hash) :
    List (ComponentPath × Hash) :=
  (p, h) :: m

/-- The environment one pass runs against: the fleet size, the result of the
desired-state read (`driver.FindActiveComponents`), injected RPC failures
(the k-th RPC of the pass fails with `rpcErr k` when that is `some`), the
activator's HEAD resolution for the k-th RPC, and the random source feeding
`rand.Intn`. -/
structure Oracle where
  n : Nat
  findActive : Except Err (List ComponentPath)
  rpcErr : Nat → Option Err
  resolve : Nat → Hash
  rand : Nat → Nat

/-- Result of one step (or one whole pass): normal return, error return, or
a Go runtime panic (`crashed`), each carrying the state reached. -/
inductive StepResult (α : Type) where
  | ok (a : α) (s : PassState)
  | err (e : Err) (s : PassState)
  | crashed (s : PassState)

/-- The state carried by a `StepResult`. -/
def StepResult.st {α : Type} : StepResult α → PassState
  | .ok _ s => s
  | .err _ s => s
  | .crashed s => s

/-- Modelled from the spec: the mock worker fleet answers `GET /meta/status`
with exactly its current running set (telemetry fields zeroed; the
reconciler only reads `id`). -/
def statusOf (fleet : Nat → List ComponentID) (w : Nat) : StatusResponse :=
  ⟨0, 0, 0, (fleet w).map fun id => ⟨id, "", 0, 0, 0, 0, []⟩⟩

/-- One `w.Status()` call inside a pass: fails iff the oracle injects a
failure at the current RPC counter; otherwise reports the worker's current
running set. -/
def doStatus (o : Oracle) (s : PassState) (w : Nat) : StepResult StatusResponse :=
  match o.rpcErr s.ctr with
  | some e => .err e { s with ctr := s.ctr + 1, trace := s.trace ++ [.status w (some e)] }
  | none => .ok (statusOf s.fleet w)
      { s with ctr := s.ctr + 1, trace := s.trace ++ [.status w none] }

/-- Modelled from the spec: `activator.Activate(id, worker)` stages the
artifact, resolving the `HEAD` sentinel to a concrete hash, deploys to the
worker (which then runs the resolved component), and returns the concrete
hash actually deployed (the activator package is outside `src/`). -/
def doActivate (o : Oracle) (s : PassState) (w : Nat) (id : ComponentID) :
    StepResult Hash :=
  match o.rpcErr s.ctr with
  | some e => .err e { s with ctr := s.ctr + 1, trace := s.trace ++ [.activate w id (.error e)] }
  | none =>
    let rh := if id.hash = headHashSentinel then o.resolve s.ctr else id.hash
    .ok rh { s with
      ctr := s.ctr + 1,
      fleet := fun i => if i = w then ⟨id.user, id.repo, rh⟩ :: s.fleet i else s.fleet i,
      trace := s.trace ++ [.activate w id (.ok rh)] }

/-- Modelled from the spec: `activator.Deactivate(id, worker)` commands the
worker to stop the exact component `id`; the mock worker removes it from its
running set. -/
def doDeactivate (o : Oracle) (s : PassState) (w : Nat) (id : ComponentID) :
    StepResult Unit :=
  match o.rpcErr s.ctr with
  | some e => .err e { s with ctr := s.ctr + 1, trace := s.trace ++ [.deactivate w id (.error e)] }
  | none => .ok ()
      { s with
        ctr := s.ctr + 1,
        fleet := fun i => if i = w then (s.fleet i).filter (fun c => !(c == id)) else s.fleet i,
        trace := s.trace ++ [.deactivate w id (.ok ())] }

/-- `rand.Intn(bound)` (Go panics when `bound ≤ 0`; with `Nat` the only such
case is `bound = 0`). -/
def randIntn (o : Oracle) (s : PassState) (bound : Nat) : StepResult Nat :=
  if bound = 0 then .crashed s
  else .ok (o.rand s.rctr % bound) { s with rctr := s.rctr + 1 }

/-- The deactivation loop of `ActionManager.deactivateNonactive`
(`src/deployment/actionManger.go` lines 180–188). -/
def deactivateList (o : Oracle) (w : Nat) (ids : List ComponentID) (s : PassState) :
    StepResult Unit :=
  match ids with
  | [] => .ok () s
  | id :: rest =>
    match doDeactivate o s w id with
    | .ok _ s' => deactivateList o w rest s'
    | .err e s' => .err e s'
    | .crashed s' => .crashed s'

/-- `ActionManager.deactivateNonactive` (`src/deployment/actionManger.go`
lines 174–191). -/
def deactivateNonactive (o : Oracle) (w : Nat) (active : List ComponentPath)
    (s : PassState) : StepResult Unit :=
  match doStatus o s w with
  | .err e s' => .err e s'
  | .crashed s' => .crashed s'
  | .ok status s' => deactivateList o w (status.FindNonactive active) s'

/-- The worker scan of `ActionManager.activateMissing`
(`src/deployment/actionManger.go` lines 199–209): returns `true` as soon as
some worker's status contains the path, short-circuiting the loop. -/
def amScan (o : Oracle) (path : ComponentPath) (ws : List Nat) (s : PassState) :
    StepResult Bool :=
  match ws with
  | [] => .ok false s
  | w :: rest =>
    match doStatus o s w with
    | .err e s' => .err e s'
    | .crashed s' => .crashed s'
    | .ok status s' =>
      if status.ContainsPath path then .ok true s'
      else amScan o path rest s'

/-- `ActionManager.activateMissing` (`src/deployment/actionManger.go`
lines 193–228): scan for the path; if absent everywhere, activate on a
uniformly random worker of the full fleet, and on a `HEAD` deploy record the
resolved hash in `pathHashes`. -/
def activateMissing (o : Oracle) (toCheck : ComponentID) (s : PassState) :
    StepResult Unit :=
  let path : ComponentPath := ⟨toCheck.user, toCheck.repo⟩
  match amScan o path (List.range o.n) s with
  | .err e s' => .err e s'
  | .crashed s' => .crashed s'
  | .ok true s' => .ok () s'
  | .ok false s' =>
    match randIntn o s' o.n with
    | .err e s'' => .err e s''
    | .crashed s'' => .crashed s''
    | .ok widx s'' =>
      match doActivate o s'' widx toCheck with
      | .err e s3 => .err e s3
      | .crashed s3 => .crashed s3
      | .ok activatedHash s3 =>
        if toCheck.hash = headHashSentinel then
          .ok () { s3 with pathHashes := insertHash s3.pathHashes path activatedHash }
        else .ok () s3

/-- The worker scan of `ActionManager.ensureSomeWorkerIsRunning`
(`src/deployment/actionManger.go` lines 238–254): returns `none` as soon as
a worker runs exactly `compID`; otherwise accumulates (in order) the workers
running no version of the path, returning them as `some`. -/
def esScan (o : Oracle) (compID : ComponentID) (compPath : ComponentPath)
    (ws : List Nat) (acc : List Nat) (s : PassState) : StepResult (Option (List Nat)) :=
  match ws with
  | [] => .ok (some acc) s
  | w :: rest =>
    match doStatus o s w with
    | .err e s' => .err e s'
    | .crashed s' => .crashed s'
    | .ok status s' =>
      if status.ContainsExactly compID then .ok none s'
      else if status.ContainsPath compPath then esScan o compID compPath rest acc s'
      else esScan o compID compPath rest (acc ++ [w]) s'

/-- The deployment-target selection of `ActionManager.ensureSomeWorkerIsRunning`
(`src/deployment/actionManger.go` lines 256–267): prefer a uniformly random
worker among those running no version of the path; if every worker runs some
version, pick uniformly from the full fleet and issue
`activator.Deactivate(compID, target)` — note: with `compID` itself, the
correct-hash `ComponentID` — to make room. -/
def esPick (o : Oracle) (s : PassState) (notRunningAnyVersion : List Nat)
    (compID : ComponentID) : StepResult Nat :=
  if notRunningAnyVersion.length > 0 then
    match randIntn o s notRunningAnyVersion.length with
    | .err e s' => .err e s'
    | .crashed s' => .crashed s'
    | .ok k s' => .ok (notRunningAnyVersion.getD k 0) s'
  else
    match randIntn o s o.n with
    | .err e s' => .err e s'
    | .crashed s' => .crashed s'
    | .ok k s' =>
      match doDeactivate o s' k compID with
      | .err e s'' => .err e s''
      | .crashed s'' => .crashed s''
      | .ok _ s'' => .ok k s''

/-- `ActionManager.ensureSomeWorkerIsRunning` (`src/deployment/actionManger.go`
lines 230–281). -/
def ensureSomeWorkerIsRunning (o : Oracle) (compID : ComponentID) (s : PassState) :
    StepResult Unit :=
  let compPath : ComponentPath := ⟨compID.user, compID.repo⟩
  match esScan o compID compPath (List.range o.n) [] s with
  | .err e s' => .err e s'
  | .crashed s' => .crashed s'
  | .ok none s' => .ok () s'
  | .ok (some notRunningAnyVersion) s' =>
    match esPick o s' notRunningAnyVersion compID with
    | .err e s'' => .err e s''
    | .crashed s'' => .crashed s''
    | .ok target s'' =>
      match doActivate o s'' target compID with
      | .err e s3 => .err e s3
      | .crashed s3 => .crashed s3
      | .ok deployedHash s3 =>
        if compID.hash = headHashSentinel then
          .ok () { s3 with pathHashes := insertHash s3.pathHashes compPath deployedHash }
        else .ok () s3

/-- The inner loop of `ActionManager.deactivateIfHashDiffers`
(`src/deployment/actionManger.go` lines 289–297): deactivate every running
component with the same path but a different hash. -/
def dihdLoop (o : Oracle) (w : Nat) (compID : ComponentID)
    (running : List ComponentID) (s : PassState) : StepResult Unit :=
  match running with
  | [] => .ok () s
  | rc :: rest =>
    if rc.user == compID.user && rc.repo == compID.repo && !(rc.hash == compID.hash) then
      match doDeactivate o s w rc with
      | .err e s' => .err e s'
      | .crashed s' => .crashed s'
      | .ok _ s' => dihdLoop o w compID rest s'
    else dihdLoop o w compID rest s

/-- `ActionManager.deactivateIfHashDiffers` (`src/deployment/actionManger.go`
lines 283–300). -/
def deactivateIfHashDiffers (o : Oracle) (w : Nat) (compID : ComponentID)
    (s : PassState) : StepResult Unit :=
  match doStatus o s w with
  | .err e s' => .err e s'
  | .crashed s' => .crashed s'
  | .ok status s' => dihdLoop o w compID (status.activeComponents.map (·.id)) s'

/-- Phase 1 of `HandleDirtyState`: `deactivateNonactive` on every worker
(`src/deployment/actionManger.go` lines 106–111). -/
def phase1 (o : Oracle) (active : List ComponentPath) (ws : List Nat)
    (s : PassState) : StepResult Unit :=
  match ws with
  | [] => .ok () s
  | w :: rest =>
    match deactivateNonactive o w active s with
    | .err e s' => .err e s'
    | .crashed s' => .crashed s'
    | .ok _ s' => phase1 o active rest s'

/-- Phase 2 of `HandleDirtyState`: for each desired path, deploy it (at its
indexed hash, else `HEAD`) if no worker runs any version
(`src/deployment/actionManger.go` lines 115–129). -/
def phase2 (o : Oracle) (active : List ComponentPath) (s : PassState) :
    StepResult Unit :=
  match active with
  | [] => .ok () s
  | p :: rest =>
    let hashToDeploy := (lookupHash s.pathHashes p).getD headHashSentinel
    match activateMissing o ⟨p.user, p.repo, hashToDeploy⟩ s with
    | .err e s' => .err e s'
    | .crashed s' => .crashed s'
    | .ok _ s' => phase2 o rest s'

/-- Phase 3 of `HandleDirtyState`: for each desired path with a known
correct hash, ensure some worker runs it exactly
(`src/deployment/actionManger.go` lines 133–146). -/
def phase3 (o : Oracle) (active : List ComponentPath) (s : PassState) :
    StepResult Unit :=
  match active with
  | [] => .ok () s
  | p :: rest =>
    match lookupHash s.pathHashes p with
    | none => phase3 o rest s
    | some correctHash =>
      match ensureSomeWorkerIsRunning o ⟨p.user, p.repo, correctHash⟩ s with
      | .err e s' => .err e s'
      | .crashed s' => .crashed s'
      | .ok _ s' => phase3 o rest s'

/-- The per-path worker loop of Phase 4 (`src/deployment/actionManger.go`
lines 162–167). -/
def phase4each (o : Oracle) (compID : ComponentID) (ws : List Nat)
    (s : PassState) : StepResult Unit :=
  match ws with
  | [] => .ok () s
  | w :: rest =>
    match deactivateIfHashDiffers o w compID s with
    | .err e s' => .err e s'
    | .crashed s' => .crashed s'
    | .ok _ s' => phase4each o compID rest s'

/-- Phase 4 of `HandleDirtyState`: deactivate stale hashes of every desired
path with a known correct hash (`src/deployment/actionManger.go`
lines 150–168). -/
def phase4 (o : Oracle) (active : List ComponentPath) (s : PassState) :
    StepResult Unit :=
  match active with
  | [] => .ok () s
  | p :: rest =>
    match lookupHash s.pathHashes p with
    | none => phase4 o rest s
    | some correctHash =>
      match phase4each o ⟨p.user, p.repo, correctHash⟩ (List.range o.n) s with
      | .err e s' => .err e s'
      | .crashed s' => .crashed s'
      | .ok _ s' => phase4 o rest s'

/-- `ActionManager.HandleDirtyState` (`src/deployment/actionManger.go`
lines 88–172): one reconciliation pass — desired-state read, then the four
phases in order, short-circuiting on the first error. -/
def HandleDirtyState (o : Oracle) (s : PassState) : StepResult Unit :=
  match o.findActive with
  | .error e => .err e s
  | .ok active =>
    match phase1 o active (List.range o.n) s with
    | .err e s1 => .err e s1
    | .crashed s1 => .crashed s1
    | .ok _ s1 =>
      match phase2 o active s1 with
      | .err e s2 => .err e s2
      | .crashed s2 => .crashed s2
      | .ok _ s2 =>
        match phase3 o active s2 with
        | .err e s3 => .err e s3
        | .crashed s3 => .crashed s3
        | .ok _ s3 => phase4 o active s3

/-! ### Small observers over results and traces -/

/-- Whether a step result is a normal return. -/
def StepResult.isOk {α : Type} : StepResult α → Bool
  | .ok _ _ => true
  | _ => false

/-- The first `Deactivate` RPC of a trace, if any. -/
def firstDeactID : List RPC → Option ComponentID
  | [] => none
  | .deactivate _ id _ :: _ => some id
  | _ :: rest => firstDeactID rest

/-- Whether a trace entry is an `Activate` or `Deactivate` (a fleet-mutating
command, as opposed to a `Status` query). -/
def isWrite : RPC → Bool
  | .status _ _ => false
  | _ => true

/-- The error an RPC trace entry failed with, if it failed. -/
def rpcFailure : RPC → Option Err
  | .status _ f => f
  | .activate _ _ (.error e) => some e
  | .deactivate _ _ (.error e) => some e
  | _ => none

/-! ### Concrete worlds used by counterexamples and witnesses -/

/-- A worker value for exercising the `Status` client. -/
def w0 : V9Worker := ⟨"worker0"⟩

/-- A well-formed empty status body. -/
def emptyStatus : StatusResponse := ⟨0, 0, 0, []⟩

/-- The desired path used by the concrete scenarios. -/
def pAS : ComponentPath := ⟨"alice", "svc"⟩

/-- World for C1: one worker, running the wrong version `h1` of the desired
path while the version index says `h2`; no RPC failures. -/
def oC1 : Oracle := ⟨1, .ok [pAS], fun _ => none, fun _ => "rX", fun _ => 0⟩

/-- Initial state for C1. -/
def sC1 : PassState :=
  ⟨fun i => if i = 0 then [⟨"alice", "svc", "h1"⟩] else [], [(pAS, "h2")], 0, 0, []⟩

/-- World for the C1 amendment's concrete run: two workers. -/
def oC1b : Oracle := ⟨2, .ok [pAS], fun _ => none, fun _ => "rX", fun _ => 1⟩

/-- Initial state for the C1 amendment's concrete run: every worker runs the
wrong version `h1` of the path. -/
def sC1b : PassState := ⟨fun _ => [⟨"alice", "svc", "h1"⟩], [], 0, 0, []⟩

/-- The correct-hash component the C1 scenarios drive toward. -/
def cidC1 : ComponentID := ⟨"alice", "svc", "h2"⟩

/-- World for C3: two workers; every RPC after the first would fail. -/
def oC3 : Oracle :=
  ⟨2, .ok [pAS], fun k => if k = 0 then none else some "boom", fun _ => "rX", fun _ => 0⟩

/-- Initial state for C3: worker 0 already runs some version of the path. -/
def sC3 : PassState :=
  ⟨fun i => if i = 0 then [⟨"alice", "svc", "h1"⟩] else [], [], 0, 0, []⟩

/-- World for C6/C9: one idle worker, desired path with no index entry,
activator resolving `HEAD` to `"h9"`, no RPC failures. -/
def oC6 : Oracle := ⟨1, .ok [pAS], fun _ => none, fun _ => "h9", fun _ => 0⟩

/-- Initial state for C6/C9: empty fleet contents and empty version index. -/
def sC6 : PassState := ⟨fun _ => [], [], 0, 0, []⟩

/-- World for C10: an empty fleet with a non-empty desired-active set. -/
def oC10 : Oracle := ⟨0, .ok [pAS], fun _ => none, fun _ => "rX", fun _ => 0⟩

/-- Initial state for C10. -/
def sC10 : PassState := ⟨fun _ => [], [], 0, 0, []⟩

/-! ### Claim C2 -/

/-- **C2, counterexample.**  The claim says every non-2xx reply to
`GET /meta/status` makes `Status` return an error.  But for the non-2xx
status code 500 with a well-formed JSON body, `Status` returns a successful
`StatusResponse`: the client never inspects the status code. -/
theorem claim_C2_counterexample :
    is2xx 500 = false ∧
    w0.Status (some ⟨500, .json emptyStatus⟩) = .ok emptyStatus :=
  ⟨rfl, rfl⟩

/-- **C2, amended.**  `Status` ignores the HTTP status code entirely: its
result depends only on whether transport succeeded and how the body reads
and parses.  It errors exactly on transport failure, body-read failure, or
malformed JSON; any reply with a well-formed JSON body — 2xx or not —
yields a successful `StatusResponse`. -/
theorem claim_C2 :
    (∀ (w : V9Worker) (c₁ c₂ : Nat) (b : HTTPBody),
      w.Status (some ⟨c₁, b⟩) = w.Status (some ⟨c₂, b⟩))
    ∧ (∀ (w : V9Worker) (code : Nat) (s : StatusResponse),
      w.Status (some ⟨code, .json s⟩) = .ok s)
    ∧ (∀ (w : V9Worker) (code : Nat),
      w.Status (some ⟨code, .malformed⟩) = .error "unmarshal error")
    ∧ (∀ (w : V9Worker) (code : Nat),
      w.Status (some ⟨code, .unreadable⟩) = .error "read error")
    ∧ (∀ w : V9Worker, w.Status none = .error "transport error") :=
  ⟨fun _ _ _ b => by cases b <;> rfl, fun _ _ _ => rfl, fun _ _ => rfl,
    fun _ _ => rfl, fun _ => rfl⟩

/-! ### Claim C8 -/

/-- **C8, confirmed.**  The dirty signal is a capacity-1 channel and
`NotifyComponentStateChanged` is a `select` with a `default` branch, i.e. a
total (never-blocking) transition on the signal slot.  Raising the signal is
idempotent: a second call leaves the slot exactly as one call does, and
raising an already-raised signal is a no-op, so a burst of notifications
queues at most the one pending reconciliation. -/
theorem claim_C8 :
    (∀ b, NotifyComponentStateChanged (NotifyComponentStateChanged b) =
      NotifyComponentStateChanged b)
    ∧ NotifyComponentStateChanged true = true
    ∧ NotifyComponentStateChanged false = true
    ∧ dirtyChanCapacity = 1 := by
  refine ⟨fun b => ?_, rfl, rfl, rfl⟩
  cases b <;> rfl

/-! ### Claim C10 -/

/-- **C10, confirmed.**  With an empty worker set and a non-empty
desired-active set, the pass reaches Phase 2's `rand.Intn(len(workers))`
with a zero bound and panics (`crashed`) rather than returning an error;
`ensureSomeWorkerIsRunning` has the same unguarded full-fleet selection and
panics too on an empty fleet. -/
theorem claim_C10 :
    HandleDirtyState oC10 sC10 = .crashed sC10
    ∧ ensureSomeWorkerIsRunning oC10 cidC1 sC10 = .crashed sC10 :=
  ⟨rfl, rfl⟩

/-! ### Claim C3 -/

/-- The state evolution of one successful status query of worker `i`. -/
def bumpStatus (s : PassState) (i : Nat) : PassState :=
  { s with ctr := s.ctr + 1, trace := s.trace ++ [RPC.status i none] }

theorem amScan_found (o : Oracle) (q : ComponentPath) :
    ∀ (ws₁ : List Nat) (w : Nat) (ws₂ : List Nat) (s : PassState),
      (∀ i ∈ ws₁, (statusOf s.fleet i).ContainsPath q = false) →
      (statusOf s.fleet w).ContainsPath q = true →
      (∀ k, k ≤ ws₁.length → o.rpcErr (s.ctr + k) = none) →
      amScan o q (ws₁ ++ w :: ws₂) s = .ok true (List.foldl bumpStatus s (ws₁ ++ [w])) := by
  intro ws₁
  induction ws₁ with
  | nil =>
    intro w ws₂ s _ hfound hok
    have h0 : o.rpcErr s.ctr = none := by
      have := hok 0 (Nat.zero_le _)
      simpa using this
    simp only [List.nil_append, amScan, doStatus, h0, hfound, if_true, List.foldl]
    rfl
  | cons x rest ih =>
    intro w ws₂ s hnone hfound hok
    have h0 : o.rpcErr s.ctr = none := by
      have := hok 0 (Nat.zero_le _)
      simpa using this
    have hx : (statusOf s.fleet x).ContainsPath q = false := hnone x (List.mem_cons_self x rest)
    simp only [List.cons_append, amScan, doStatus, h0, hx, Bool.false_eq_true, if_false]
    have hok' : ∀ k, k ≤ rest.length → o.rpcErr ((bumpStatus s x).ctr + k) = none := by
      intro k hk
      have h1 : (bumpStatus s x).ctr + k = s.ctr + (k + 1) := by
        simp only [bumpStatus]
        omega
      rw [h1]
      exact hok (k + 1) (by simpa using Nat.succ_le_succ hk)
    have happ := ih w ws₂ (bumpStatus s x)
      (fun i hi => hnone i (List.mem_cons_of_mem x hi)) hfound hok'
    exact happ

theorem activateMissing_skips (o : Oracle) (s : PassState) (cid : ComponentID)
    (ws₁ : List Nat) (w : Nat) (ws₂ : List Nat)
    (hsplit : List.range o.n = ws₁ ++ w :: ws₂)
    (hnone : ∀ i ∈ ws₁, (statusOf s.fleet i).ContainsPath ⟨cid.user, cid.repo⟩ = false)
    (hfound : (statusOf s.fleet w).ContainsPath ⟨cid.user, cid.repo⟩ = true)
    (hok : ∀ k, k ≤ ws₁.length → o.rpcErr (s.ctr + k) = none) :
    activateMissing o cid s = .ok () (List.foldl bumpStatus s (ws₁ ++ [w])) := by
  have hscan := amScan_found o ⟨cid.user, cid.repo⟩ ws₁ w ws₂ s hnone hfound hok
  simp only [activateMissing, hsplit, hscan]

/-- **C3, amended.**  Phase 2 queries workers in the fleet order and stops
at the first worker already running the path; if the workers scanned before
that one answer successfully, `activateMissing` returns success touching no
later worker, so a Status failure on a worker positioned after the first
runner cannot abort the pass.  (Deciding to *deploy* still requires querying
every worker.) -/
theorem claim_C3 :
    ∀ (o : Oracle) (s : PassState) (cid : ComponentID)
      (ws₁ : List Nat) (w : Nat) (ws₂ : List Nat),
      List.range o.n = ws₁ ++ w :: ws₂ →
      (∀ i ∈ ws₁, (statusOf s.fleet i).ContainsPath ⟨cid.user, cid.repo⟩ = false) →
      (statusOf s.fleet w).ContainsPath ⟨cid.user, cid.repo⟩ = true →
      (∀ k, k ≤ ws₁.length → o.rpcErr (s.ctr + k) = none) →
      activateMissing o cid s = .ok () (List.foldl bumpStatus s (ws₁ ++ [w])) :=
  fun o s cid ws₁ w ws₂ h1 h2 h3 h4 => activateMissing_skips o s cid ws₁ w ws₂ h1 h2 h3 h4

/-- Witness for `claim_C3`: in the two-worker world where worker 0 runs the
path and every RPC after the first would fail, `activateMissing` returns
success after the single status query of worker 0. -/
theorem claim_C3_witness :
    activateMissing oC3 ⟨"alice", "svc", "HEAD"⟩ sC3 =
      .ok () (List.foldl bumpStatus sC3 ([] ++ [0])) :=
  claim_C3 oC3 sC3 ⟨"alice", "svc", "HEAD"⟩ [] 0 [1] (by decide)
    (by intro i hi; exact absurd hi (List.not_mem_nil i)) rfl
    (fun k hk => by
      have hk0 : k = 0 := Nat.le_zero.mp hk
      subst hk0
      rfl)

/-! ### Claim C3, counterexample -/

/-- **C3, counterexample.**  The claim says Phase 2 queries every worker's
status before deciding to skip, so a status failure on any worker aborts the
pass even when an earlier worker already runs the path.  Concretely with two
workers, worker 0 running the path and every RPC after the first doomed to
fail, `activateMissing` returns success after querying only worker 0: the
loop short-circuits, worker 1 is never queried, and the pass is not
aborted. -/
theorem claim_C3_counterexample :
    oC3.rpcErr 1 = some "boom"
    ∧ (activateMissing oC3 ⟨"alice", "svc", "HEAD"⟩ sC3).isOk = true
    ∧ (activateMissing oC3 ⟨"alice", "svc", "HEAD"⟩ sC3).st.trace =
        [.status 0 none] :=
  ⟨rfl, rfl, rfl⟩

/-! ### Case-analysis lemmas for the RPC primitives -/

theorem doStatus_cases (o : Oracle) (s : PassState) (w : Nat) :
    (∃ e, doStatus o s w =
      .err e { s with ctr := s.ctr + 1, trace := s.trace ++ [.status w (some e)] })
    ∨ doStatus o s w = .ok (statusOf s.fleet w)
        { s with ctr := s.ctr + 1, trace := s.trace ++ [.status w none] } := by
  unfold doStatus
  cases o.rpcErr s.ctr with
  | none => exact Or.inr rfl
  | some e => exact Or.inl ⟨e, rfl⟩

theorem doActivate_cases (o : Oracle) (s : PassState) (w : Nat) (id : ComponentID) :
    (∃ e, doActivate o s w id =
      .err e { s with ctr := s.ctr + 1, trace := s.trace ++ [.activate w id (.error e)] })
    ∨ ∃ rh, rh = (if id.hash = headHashSentinel then o.resolve s.ctr else id.hash) ∧
      doActivate o s w id = .ok rh
        { s with
          ctr := s.ctr + 1,
          fleet := fun i => if i = w then ⟨id.user, id.repo, rh⟩ :: s.fleet i else s.fleet i,
          trace := s.trace ++ [.activate w id (.ok rh)] } := by
  unfold doActivate
  cases o.rpcErr s.ctr with
  | none => exact Or.inr ⟨_, rfl, rfl⟩
  | some e => exact Or.inl ⟨e, rfl⟩

theorem doDeactivate_cases (o : Oracle) (s : PassState) (w : Nat) (id : ComponentID) :
    (∃ e, doDeactivate o s w id =
      .err e { s with ctr := s.ctr + 1, trace := s.trace ++ [.deactivate w id (.error e)] })
    ∨ doDeactivate o s w id = .ok ()
        { s with
          ctr := s.ctr + 1,
          fleet := fun i => if i = w then (s.fleet i).filter (fun c => !(c == id)) else s.fleet i,
          trace := s.trace ++ [.deactivate w id (.ok ())] } := by
  unfold doDeactivate
  cases o.rpcErr s.ctr with
  | none => exact Or.inr rfl
  | some e => exact Or.inl ⟨e, rfl⟩

theorem randIntn_cases (o : Oracle) (s : PassState) (bound : Nat) :
    (bound = 0 ∧ randIntn o s bound = .crashed s)
    ∨ (bound ≠ 0 ∧ randIntn o s bound =
        .ok (o.rand s.rctr % bound) { s with rctr := s.rctr + 1 }) := by
  unfold randIntn
  by_cases h : bound = 0
  · exact Or.inl ⟨h, by rw [if_pos h]⟩
  · exact Or.inr ⟨h, by rw [if_neg h]⟩

/-! ### Trace-shape lemmas for `ensureSomeWorkerIsRunning` -/

theorem esScan_trace (o : Oracle) (cid : ComponentID) (cp : ComponentPath) :
    ∀ (ws acc : List Nat) (s : PassState) (a : RPC),
      a ∈ (esScan o cid cp ws acc s).st.trace →
      a ∈ s.trace ∨ ∃ w f, a = RPC.status w f := by
  intro ws
  induction ws with
  | nil => intro acc s a ha; exact Or.inl ha
  | cons w rest ih =>
    intro acc s a ha
    rcases doStatus_cases o s w with ⟨e, he⟩ | he
    · simp only [esScan, he, StepResult.st] at ha
      rcases List.mem_append.mp ha with h1 | h1
      · exact Or.inl h1
      · exact Or.inr ⟨w, some e, List.mem_singleton.mp h1⟩
    · simp only [esScan, he] at ha
      by_cases hex : (statusOf s.fleet w).ContainsExactly cid = true
      · rw [if_pos hex] at ha
        simp only [StepResult.st] at ha
        rcases List.mem_append.mp ha with h1 | h1
        · exact Or.inl h1
        · exact Or.inr ⟨w, none, List.mem_singleton.mp h1⟩
      · rw [if_neg hex] at ha
        have decomp : ∀ b : RPC, b ∈ s.trace ++ [RPC.status w none] →
            b ∈ s.trace ∨ ∃ w' f, b = RPC.status w' f := by
          intro b hb
          rcases List.mem_append.mp hb with h1 | h1
          · exact Or.inl h1
          · exact Or.inr ⟨w, none, List.mem_singleton.mp h1⟩
        by_cases hcp : (statusOf s.fleet w).ContainsPath cp = true
        · rw [if_pos hcp] at ha
          rcases ih acc _ a ha with h1 | h1
          · exact decomp a h1
          · exact Or.inr h1
        · rw [if_neg hcp] at ha
          rcases ih (acc ++ [w]) _ a ha with h1 | h1
          · exact decomp a h1
          · exact Or.inr h1

theorem esPick_trace (o : Oracle) (s : PassState) (nr : List Nat) (cid : ComponentID)
    (a : RPC) (ha : a ∈ (esPick o s nr cid).st.trace) :
    a ∈ s.trace ∨ ∃ w r, a = RPC.deactivate w cid r := by
  unfold esPick at ha
  by_cases hlen : nr.length > 0
  · rw [if_pos hlen] at ha
    rcases randIntn_cases o s nr.length with ⟨h0, he⟩ | ⟨h0, he⟩ <;>
      simp only [he, StepResult.st] at ha
    · exact Or.inl ha
    · exact Or.inl ha
  · rw [if_neg hlen] at ha
    rcases randIntn_cases o s o.n with ⟨h0, he⟩ | ⟨h0, he⟩ <;>
      simp only [he, StepResult.st] at ha
    · exact Or.inl ha
    · rcases doDeactivate_cases o { s with rctr := s.rctr + 1 } (o.rand s.rctr % o.n) cid with
        ⟨e, hd⟩ | hd <;> simp only [hd, StepResult.st] at ha
      · rcases List.mem_append.mp ha with h1 | h1
        · exact Or.inl h1
        · exact Or.inr ⟨_, _, List.mem_singleton.mp h1⟩
      · rcases List.mem_append.mp ha with h1 | h1
        · exact Or.inl h1
        · exact Or.inr ⟨_, _, List.mem_singleton.mp h1⟩

/-- The trace entries `ensureSomeWorkerIsRunning` can add: statuses, and
deactivates/activates of `cid` itself. -/
def EswirNew (cid : ComponentID) (sTr : List RPC) (a : RPC) : Prop :=
  a ∈ sTr ∨ (∃ w f, a = RPC.status w f)
    ∨ (∃ w r, a = RPC.deactivate w cid r)
    ∨ (∃ w r, a = RPC.activate w cid r)

theorem eswirNew_of_scan {cid : ComponentID} {sTr : List RPC} {a : RPC}
    (h : a ∈ sTr ∨ ∃ w f, a = RPC.status w f) : EswirNew cid sTr a := by
  rcases h with h | h
  · exact Or.inl h
  · exact Or.inr (Or.inl h)

theorem eswirNew_of_pick {cid : ComponentID} {sTr : List RPC} {a : RPC}
    (h : a ∈ sTr ∨ (∃ w f, a = RPC.status w f) ∨ ∃ w r, a = RPC.deactivate w cid r) :
    EswirNew cid sTr a := by
  rcases h with h | h | h
  · exact Or.inl h
  · exact Or.inr (Or.inl h)
  · exact Or.inr (Or.inr (Or.inl h))

theorem eswir_trace (o : Oracle) (cid : ComponentID) (s : PassState) (a : RPC)
    (ha : a ∈ (ensureSomeWorkerIsRunning o cid s).st.trace) :
    EswirNew cid s.trace a := by
  cases hscan : esScan o cid ⟨cid.user, cid.repo⟩ (List.range o.n) [] s with
  | err e s' =>
    simp only [ensureSomeWorkerIsRunning, hscan, StepResult.st] at ha
    exact eswirNew_of_scan
      (esScan_trace o cid ⟨cid.user, cid.repo⟩ (List.range o.n) [] s a
        (by rw [hscan]; exact ha))
  | crashed s' =>
    simp only [ensureSomeWorkerIsRunning, hscan, StepResult.st] at ha
    exact eswirNew_of_scan
      (esScan_trace o cid ⟨cid.user, cid.repo⟩ (List.range o.n) [] s a
        (by rw [hscan]; exact ha))
  | ok found s' =>
    have hs' : ∀ b ∈ s'.trace, b ∈ s.trace ∨ ∃ w f, b = RPC.status w f := by
      intro b hb
      exact esScan_trace o cid ⟨cid.user, cid.repo⟩ (List.range o.n) [] s b
        (by rw [hscan]; exact hb)
    cases found with
    | none =>
      simp only [ensureSomeWorkerIsRunning, hscan, StepResult.st] at ha
      exact eswirNew_of_scan (hs' a ha)
    | some nr =>
      have hPick : ∀ (s'' : PassState), (esPick o s' nr cid).st = s'' →
          ∀ b ∈ s''.trace,
            b ∈ s.trace ∨ (∃ w f, b = RPC.status w f) ∨ ∃ w r, b = RPC.deactivate w cid r := by
        intro s'' hmatch b hb
        rcases esPick_trace o s' nr cid b (by rw [hmatch]; exact hb) with h1 | h1
        · rcases hs' b h1 with h2 | h2
          · exact Or.inl h2
          · exact Or.inr (Or.inl h2)
        · exact Or.inr (Or.inr h1)
      cases hpick : esPick o s' nr cid with
      | err e s'' =>
        simp only [ensureSomeWorkerIsRunning, hscan, hpick, StepResult.st] at ha
        exact eswirNew_of_pick (hPick s'' (by rw [hpick]; rfl) a ha)
      | crashed s'' =>
        simp only [ensureSomeWorkerIsRunning, hscan, hpick, StepResult.st] at ha
        exact eswirNew_of_pick (hPick s'' (by rw [hpick]; rfl) a ha)
      | ok target s'' =>
        have hs'' := hPick s'' (by rw [hpick]; rfl)
        rcases doActivate_cases o s'' target cid with ⟨e, hact⟩ | ⟨rh, hrh, hact⟩
        · simp only [ensureSomeWorkerIsRunning, hscan, hpick, hact, StepResult.st] at ha
          rcases List.mem_append.mp ha with h1 | h1
          · exact eswirNew_of_pick (hs'' a h1)
          · exact Or.inr (Or.inr (Or.inr ⟨target, .error e, List.mem_singleton.mp h1⟩))
        · simp only [ensureSomeWorkerIsRunning, hscan, hpick, hact] at ha
          have hmem : a ∈ s''.trace ++ [RPC.activate target cid (.ok rh)] := by
            by_cases hh : cid.hash = headHashSentinel
            · rw [if_pos hh] at ha; simpa [StepResult.st] using ha
            · rw [if_neg hh] at ha; simpa [StepResult.st] using ha
          rcases List.mem_append.mp hmem with h1 | h1
          · exact eswirNew_of_pick (hs'' a h1)
          · exact Or.inr (Or.inr (Or.inr ⟨target, .ok rh, List.mem_singleton.mp h1⟩))

/-- **C1, amended.**  In Phase 3's "everyone runs a wrong version" branch
the reconciler picks a target uniformly at random from the full fleet and
first issues a `Deactivate` carrying `compID` itself — the ComponentID with
the *correct* hash, not the wrong-hash version the target currently runs —
then `Activate({path, correctHash})` on that same target.  Part one: every
`Deactivate` that `ensureSomeWorkerIsRunning` adds to the trace carries
exactly its `compID` argument.  Part two: on a concrete two-worker fleet in
which every worker runs a wrong version of the path, the emitted trace is
the two status queries followed by `Deactivate(compID)` then
`Activate(compID)` on the randomly selected full-fleet target 1 =
`rand % 2`. -/
theorem claim_C1 :
    (∀ (o : Oracle) (s : PassState) (cid : ComponentID) (w : Nat) (i : ComponentID)
      (r : Except Err Unit),
      RPC.deactivate w i r ∈ (ensureSomeWorkerIsRunning o cid s).st.trace →
      RPC.deactivate w i r ∈ s.trace ∨ i = cid)
    ∧ (ensureSomeWorkerIsRunning oC1b cidC1 sC1b).st.trace =
        [.status 0 none, .status 1 none,
         .deactivate 1 cidC1 (.ok ()), .activate 1 cidC1 (.ok "h2")]
    ∧ oC1b.rand 0 % oC1b.n = 1 := by
  refine ⟨?_, rfl, rfl⟩
  intro o s cid w i r hmem
  rcases eswir_trace o cid s _ hmem with h | ⟨w', f, h⟩ | ⟨w', r', h⟩ | ⟨w', r', h⟩
  · exact Or.inl h
  · exact RPC.noConfusion h
  · injection h with h1 h2 h3
    exact Or.inr h2
  · exact RPC.noConfusion h

/-- Witness for `claim_C1`: its universally quantified part applied at the
concrete two-worker run, whose trace does contain a `Deactivate`. -/
theorem claim_C1_witness :
    RPC.deactivate 1 cidC1 (.ok ()) ∈ sC1b.trace ∨ cidC1 = cidC1 :=
  claim_C1.1 oC1b sC1b cidC1 1 cidC1 (.ok ()) (by decide)

/-! ### The version index is written exactly at successful HEAD activations

`headWStep`/`headW` replay, over a trace, the only writes the pass makes to
`pathHashes`: a successful `Activate` whose requested hash was the `HEAD`
sentinel stores the resolved hash under the component's path. -/

/-- How one trace entry affects the version-index entry of path `q`. -/
def headWStep (q : ComponentPath) (acc : Option Hash) (a : RPC) : Option Hash :=
  match a with
  | RPC.activate _ id (.ok rh) =>
    if id.user = q.user ∧ id.repo = q.repo ∧ id.hash = headHashSentinel then some rh else acc
  | _ => acc

/-- The version-index entry of path `q` after replaying a trace over `base`. -/
def headW (t : List RPC) (q : ComponentPath) (base : Option Hash) : Option Hash :=
  t.foldl (headWStep q) base

theorem headW_append (t : List RPC) (a : RPC) (q : ComponentPath) (b : Option Hash) :
    headW (t ++ [a]) q b = headWStep q (headW t q b) a := by
  simp [headW, List.foldl_append]

theorem lookupHash_insert (m : List (ComponentPath × Hash)) (p : ComponentPath)
    (h : Hash) (q : ComponentPath) :
    lookupHash (insertHash m p h) q = if p = q then some h else lookupHash m q := rfl

/-- `s'` extends `s` preserving the invariant "the index entry of `q` equals
the replay of the trace over base `b`". -/
def IndexStep (s s' : PassState) : Prop :=
  ∀ (q : ComponentPath) (b : Option Hash),
    lookupHash s.pathHashes q = headW s.trace q b →
    lookupHash s'.pathHashes q = headW s'.trace q b

theorem indexStep_refl (s : PassState) : IndexStep s s := fun _ _ h => h

theorem indexStep_trans {s1 s2 s3 : PassState} (h12 : IndexStep s1 s2)
    (h23 : IndexStep s2 s3) : IndexStep s1 s3 :=
  fun q b h => h23 q b (h12 q b h)

theorem indexInv_append_status {ph : List (ComponentPath × Hash)} {tr : List RPC}
    {q : ComponentPath} {b : Option Hash} (w : Nat) (f : Option Err)
    (h : lookupHash ph q = headW tr q b) :
    lookupHash ph q = headW (tr ++ [RPC.status w f]) q b := by
  rw [headW_append]
  exact h

theorem indexInv_append_deactivate {ph : List (ComponentPath × Hash)} {tr : List RPC}
    {q : ComponentPath} {b : Option Hash} (w : Nat) (id : ComponentID) (r : Except Err Unit)
    (h : lookupHash ph q = headW tr q b) :
    lookupHash ph q = headW (tr ++ [RPC.deactivate w id r]) q b := by
  rw [headW_append]
  exact h

theorem indexInv_append_activate_err {ph : List (ComponentPath × Hash)} {tr : List RPC}
    {q : ComponentPath} {b : Option Hash} (w : Nat) (id : ComponentID) (e : Err)
    (h : lookupHash ph q = headW tr q b) :
    lookupHash ph q = headW (tr ++ [RPC.activate w id (.error e)]) q b := by
  rw [headW_append]
  exact h

theorem headWStep_activate_ok (q : ComponentPath) (acc : Option Hash) (w : Nat)
    (id : ComponentID) (rh : Hash) :
    headWStep q acc (RPC.activate w id (.ok rh)) =
      if id.user = q.user ∧ id.repo = q.repo ∧ id.hash = headHashSentinel then some rh
      else acc := rfl

theorem indexInv_insert_headUpdate {ph : List (ComponentPath × Hash)} {tr : List RPC}
    {q : ComponentPath} {b : Option Hash} (cid : ComponentID) (w : Nat) (rh : Hash)
    (hh : cid.hash = headHashSentinel)
    (h : lookupHash ph q = headW tr q b) :
    lookupHash (insertHash ph ⟨cid.user, cid.repo⟩ rh) q =
      headW (tr ++ [RPC.activate w cid (.ok rh)]) q b := by
  rw [headW_append, headWStep_activate_ok, lookupHash_insert]
  by_cases hq : (⟨cid.user, cid.repo⟩ : ComponentPath) = q
  · have hu : cid.user = q.user := by rw [← hq]
    have hr : cid.repo = q.repo := by rw [← hq]
    rw [if_pos hq, if_pos ⟨hu, hr, hh⟩]
  · rw [if_neg hq, if_neg, h]
    intro ⟨hu, hr, _⟩
    exact hq (by cases q; simp_all)

theorem indexInv_activate_nonhead {ph : List (ComponentPath × Hash)} {tr : List RPC}
    {q : ComponentPath} {b : Option Hash} (cid : ComponentID) (w : Nat) (rh : Hash)
    (hh : ¬cid.hash = headHashSentinel)
    (h : lookupHash ph q = headW tr q b) :
    lookupHash ph q = headW (tr ++ [RPC.activate w cid (.ok rh)]) q b := by
  rw [headW_append, headWStep_activate_ok, if_neg, h]
  intro ⟨_, _, hhash⟩
  exact hh hhash

theorem indexStep_doStatus (o : Oracle) (s : PassState) (w : Nat) :
    IndexStep s (doStatus o s w).st := by
  rcases doStatus_cases o s w with ⟨e, he⟩ | he <;> rw [he] <;>
    exact fun q b h => indexInv_append_status _ _ h

theorem indexStep_doDeactivate (o : Oracle) (s : PassState) (w : Nat) (id : ComponentID) :
    IndexStep s (doDeactivate o s w id).st := by
  rcases doDeactivate_cases o s w id with ⟨e, he⟩ | he <;> rw [he] <;>
    exact fun q b h => indexInv_append_deactivate _ _ _ h

theorem indexStep_deactivateList (o : Oracle) (w : Nat) :
    ∀ (ids : List ComponentID) (s : PassState), IndexStep s (deactivateList o w ids s).st := by
  intro ids
  induction ids with
  | nil => intro s; exact indexStep_refl s
  | cons id rest ih =>
    intro s
    rcases doDeactivate_cases o s w id with ⟨e, he⟩ | he <;>
      simp only [deactivateList, he, StepResult.st]
    · exact fun q b h => indexInv_append_deactivate _ _ _ h
    · refine indexStep_trans ?_ (ih _)
      exact fun q b h => indexInv_append_deactivate _ _ _ h

theorem indexStep_deactivateNonactive (o : Oracle) (w : Nat) (active : List ComponentPath)
    (s : PassState) : IndexStep s (deactivateNonactive o w active s).st := by
  rcases doStatus_cases o s w with ⟨e, he⟩ | he <;>
    simp only [deactivateNonactive, he, StepResult.st]
  · exact fun q b h => indexInv_append_status _ _ h
  · refine indexStep_trans ?_ (indexStep_deactivateList o w _ _)
    exact fun q b h => indexInv_append_status _ _ h

theorem indexStep_amScan (o : Oracle) (path : ComponentPath) :
    ∀ (ws : List Nat) (s : PassState), IndexStep s (amScan o path ws s).st := by
  intro ws
  induction ws with
  | nil => intro s; exact indexStep_refl s
  | cons w rest ih =>
    intro s
    rcases doStatus_cases o s w with ⟨e, he⟩ | he <;>
      simp only [amScan, he, StepResult.st]
    · exact fun q b h => indexInv_append_status _ _ h
    · by_cases hcp : (statusOf s.fleet w).ContainsPath path = true
      · rw [if_pos hcp]
        exact fun q b h => indexInv_append_status _ _ h
      · rw [if_neg hcp]
        refine indexStep_trans ?_ (ih _)
        exact fun q b h => indexInv_append_status _ _ h

theorem indexStep_activateMissing (o : Oracle) (cid : ComponentID) (s : PassState) :
    IndexStep s (activateMissing o cid s).st := by
  have hscanStep : IndexStep s (amScan o ⟨cid.user, cid.repo⟩ (List.range o.n) s).st :=
    indexStep_amScan o ⟨cid.user, cid.repo⟩ (List.range o.n) s
  cases hscan : amScan o ⟨cid.user, cid.repo⟩ (List.range o.n) s with
  | err e s' =>
    simp only [activateMissing, hscan, StepResult.st]
    rw [hscan] at hscanStep
    exact hscanStep
  | crashed s' =>
    simp only [activateMissing, hscan, StepResult.st]
    rw [hscan] at hscanStep
    exact hscanStep
  | ok found s' =>
    rw [hscan] at hscanStep
    cases found with
    | true =>
      simp only [activateMissing, hscan, StepResult.st]
      exact hscanStep
    | false =>
      rcases randIntn_cases o s' o.n with ⟨h0, hr⟩ | ⟨h0, hr⟩
      · simp only [activateMissing, hscan, hr, StepResult.st]
        exact hscanStep
      · rcases doActivate_cases o { s' with rctr := s'.rctr + 1 } (o.rand s'.rctr % o.n) cid
          with ⟨e, hact⟩ | ⟨rh, hrh, hact⟩
        · simp only [activateMissing, hscan, hr, hact, StepResult.st]
          refine indexStep_trans hscanStep ?_
          exact fun q b h => indexInv_append_activate_err _ _ _ h
        · by_cases hh : cid.hash = headHashSentinel
          · simp only [activateMissing, hscan, hr, hact, if_pos hh, StepResult.st]
            refine indexStep_trans hscanStep ?_
            exact fun q b h => indexInv_insert_headUpdate cid _ rh hh h
          · simp only [activateMissing, hscan, hr, hact, if_neg hh, StepResult.st]
            refine indexStep_trans hscanStep ?_
            exact fun q b h => indexInv_activate_nonhead cid _ rh hh h

theorem indexStep_esScan (o : Oracle) (cid : ComponentID) (cp : ComponentPath) :
    ∀ (ws acc : List Nat) (s : PassState), IndexStep s (esScan o cid cp ws acc s).st := by
  intro ws
  induction ws with
  | nil => intro acc s; exact indexStep_refl s
  | cons w rest ih =>
    intro acc s
    rcases doStatus_cases o s w with ⟨e, he⟩ | he <;>
      simp only [esScan, he, StepResult.st]
    · exact fun q b h => indexInv_append_status _ _ h
    · by_cases hex : (statusOf s.fleet w).ContainsExactly cid = true
      · rw [if_pos hex]
        exact fun q b h => indexInv_append_status _ _ h
      · rw [if_neg hex]
        by_cases hcp : (statusOf s.fleet w).ContainsPath cp = true
        · rw [if_pos hcp]
          refine indexStep_trans ?_ (ih acc _)
          exact fun q b h => indexInv_append_status _ _ h
        · rw [if_neg hcp]
          refine indexStep_trans ?_ (ih (acc ++ [w]) _)
          exact fun q b h => indexInv_append_status _ _ h

theorem indexStep_esPick (o : Oracle) (s : PassState) (nr : List Nat) (cid : ComponentID) :
    IndexStep s (esPick o s nr cid).st := by
  unfold esPick
  by_cases hlen : nr.length > 0
  · rw [if_pos hlen]
    rcases randIntn_cases o s nr.length with ⟨h0, hr⟩ | ⟨h0, hr⟩ <;>
      simp only [hr, StepResult.st]
    · exact indexStep_refl s
    · exact fun q b h => h
  · rw [if_neg hlen]
    rcases randIntn_cases o s o.n with ⟨h0, hr⟩ | ⟨h0, hr⟩ <;>
      simp only [hr, StepResult.st]
    · exact indexStep_refl s
    · rcases doDeactivate_cases o { s with rctr := s.rctr + 1 } (o.rand s.rctr % o.n) cid
        with ⟨e, hd⟩ | hd <;> simp only [hd, StepResult.st]
      · exact fun q b h => indexInv_append_deactivate _ _ _ h
      · exact fun q b h => indexInv_append_deactivate _ _ _ h

theorem indexStep_eswir (o : Oracle) (cid : ComponentID) (s : PassState) :
    IndexStep s (ensureSomeWorkerIsRunning o cid s).st := by
  have hscanStep : IndexStep s (esScan o cid ⟨cid.user, cid.repo⟩ (List.range o.n) [] s).st :=
    indexStep_esScan o cid ⟨cid.user, cid.repo⟩ (List.range o.n) [] s
  cases hscan : esScan o cid ⟨cid.user, cid.repo⟩ (List.range o.n) [] s with
  | err e s' =>
    simp only [ensureSomeWorkerIsRunning, hscan, StepResult.st]
    rw [hscan] at hscanStep
    exact hscanStep
  | crashed s' =>
    simp only [ensureSomeWorkerIsRunning, hscan, StepResult.st]
    rw [hscan] at hscanStep
    exact hscanStep
  | ok found s' =>
    rw [hscan] at hscanStep
    cases found with
    | none =>
      simp only [ensureSomeWorkerIsRunning, hscan, StepResult.st]
      exact hscanStep
    | some nr =>
      have hpickStep : IndexStep s' (esPick o s' nr cid).st := indexStep_esPick o s' nr cid
      cases hpick : esPick o s' nr cid with
      | err e s'' =>
        simp only [ensureSomeWorkerIsRunning, hscan, hpick, StepResult.st]
        rw [hpick] at hpickStep
        exact indexStep_trans hscanStep hpickStep
      | crashed s'' =>
        simp only [ensureSomeWorkerIsRunning, hscan, hpick, StepResult.st]
        rw [hpick] at hpickStep
        exact indexStep_trans hscanStep hpickStep
      | ok target s'' =>
        rw [hpick] at hpickStep
        have hpre : IndexStep s s'' := indexStep_trans hscanStep hpickStep
        rcases doActivate_cases o s'' target cid with ⟨e, hact⟩ | ⟨rh, hrh, hact⟩
        · simp only [ensureSomeWorkerIsRunning, hscan, hpick, hact, StepResult.st]
          refine indexStep_trans hpre ?_
          exact fun q b h => indexInv_append_activate_err _ _ _ h
        · by_cases hh : cid.hash = headHashSentinel
          · simp only [ensureSomeWorkerIsRunning, hscan, hpick, hact, if_pos hh, StepResult.st]
            refine indexStep_trans hpre ?_
            exact fun q b h => indexInv_insert_headUpdate cid _ rh hh h
          · simp only [ensureSomeWorkerIsRunning, hscan, hpick, hact, if_neg hh, StepResult.st]
            refine indexStep_trans hpre ?_
            exact fun q b h => indexInv_activate_nonhead cid _ rh hh h

theorem indexStep_dihdLoop (o : Oracle) (w : Nat) (cid : ComponentID) :
    ∀ (running : List ComponentID) (s : PassState),
      IndexStep s (dihdLoop o w cid running s).st := by
  intro running
  induction running with
  | nil => intro s; exact indexStep_refl s
  | cons rc rest ih =>
    intro s
    by_cases hc : (rc.user == cid.user && rc.repo == cid.repo && !(rc.hash == cid.hash)) = true
    · simp only [dihdLoop]
      rw [if_pos hc]
      rcases doDeactivate_cases o s w rc with ⟨e, hd⟩ | hd <;> simp only [hd, StepResult.st]
      · exact fun q b h => indexInv_append_deactivate _ _ _ h
      · refine indexStep_trans ?_ (ih _)
        exact fun q b h => indexInv_append_deactivate _ _ _ h
    · simp only [dihdLoop]
      rw [if_neg hc]
      exact ih s

theorem indexStep_deactivateIfHashDiffers (o : Oracle) (w : Nat) (cid : ComponentID)
    (s : PassState) : IndexStep s (deactivateIfHashDiffers o w cid s).st := by
  rcases doStatus_cases o s w with ⟨e, he⟩ | he <;>
    simp only [deactivateIfHashDiffers, he, StepResult.st]
  · exact fun q b h => indexInv_append_status _ _ h
  · refine indexStep_trans ?_ (indexStep_dihdLoop o w cid _ _)
    exact fun q b h => indexInv_append_status _ _ h

theorem indexStep_phase1 (o : Oracle) (active : List ComponentPath) :
    ∀ (ws : List Nat) (s : PassState), IndexStep s (phase1 o active ws s).st := by
  intro ws
  induction ws with
  | nil => intro s; exact indexStep_refl s
  | cons w rest ih =>
    intro s
    have hd := indexStep_deactivateNonactive o w active s
    cases hdna : deactivateNonactive o w active s with
    | err e s' =>
      simp only [phase1, hdna, StepResult.st]
      rw [hdna] at hd
      exact hd
    | crashed s' =>
      simp only [phase1, hdna, StepResult.st]
      rw [hdna] at hd
      exact hd
    | ok a s' =>
      simp only [phase1, hdna, StepResult.st]
      rw [hdna] at hd
      exact indexStep_trans hd (ih s')

theorem indexStep_phase2 (o : Oracle) :
    ∀ (active : List ComponentPath) (s : PassState), IndexStep s (phase2 o active s).st := by
  intro active
  induction active with
  | nil => intro s; exact indexStep_refl s
  | cons p rest ih =>
    intro s
    have ham := indexStep_activateMissing o
      ⟨p.user, p.repo, (lookupHash s.pathHashes p).getD headHashSentinel⟩ s
    cases hm : activateMissing o
        ⟨p.user, p.repo, (lookupHash s.pathHashes p).getD headHashSentinel⟩ s with
    | err e s' =>
      simp only [phase2, hm, StepResult.st]
      rw [hm] at ham
      exact ham
    | crashed s' =>
      simp only [phase2, hm, StepResult.st]
      rw [hm] at ham
      exact ham
    | ok a s' =>
      simp only [phase2, hm, StepResult.st]
      rw [hm] at ham
      exact indexStep_trans ham (ih s')

theorem indexStep_phase3 (o : Oracle) :
    ∀ (active : List ComponentPath) (s : PassState), IndexStep s (phase3 o active s).st := by
  intro active
  induction active with
  | nil => intro s; exact indexStep_refl s
  | cons p rest ih =>
    intro s
    cases hl : lookupHash s.pathHashes p with
    | none =>
      simp only [phase3, hl]
      exact ih s
    | some correctHash =>
      have hes := indexStep_eswir o ⟨p.user, p.repo, correctHash⟩ s
      cases he : ensureSomeWorkerIsRunning o ⟨p.user, p.repo, correctHash⟩ s with
      | err e s' =>
        simp only [phase3, hl, he, StepResult.st]
        rw [he] at hes
        exact hes
      | crashed s' =>
        simp only [phase3, hl, he, StepResult.st]
        rw [he] at hes
        exact hes
      | ok a s' =>
        simp only [phase3, hl, he, StepResult.st]
        rw [he] at hes
        exact indexStep_trans hes (ih s')

theorem indexStep_phase4each (o : Oracle) (cid : ComponentID) :
    ∀ (ws : List Nat) (s : PassState), IndexStep s (phase4each o cid ws s).st := by
  intro ws
  induction ws with
  | nil => intro s; exact indexStep_refl s
  | cons w rest ih =>
    intro s
    have hd := indexStep_deactivateIfHashDiffers o w cid s
    cases hdi : deactivateIfHashDiffers o w cid s with
    | err e s' =>
      simp only [phase4each, hdi, StepResult.st]
      rw [hdi] at hd
      exact hd
    | crashed s' =>
      simp only [phase4each, hdi, StepResult.st]
      rw [hdi] at hd
      exact hd
    | ok a s' =>
      simp only [phase4each, hdi, StepResult.st]
      rw [hdi] at hd
      exact indexStep_trans hd (ih s')

theorem indexStep_phase4 (o : Oracle) :
    ∀ (active : List ComponentPath) (s : PassState), IndexStep s (phase4 o active s).st := by
  intro active
  induction active with
  | nil => intro s; exact indexStep_refl s
  | cons p rest ih =>
    intro s
    cases hl : lookupHash s.pathHashes p with
    | none =>
      simp only [phase4, hl]
      exact ih s
    | some correctHash =>
      have h4 := indexStep_phase4each o ⟨p.user, p.repo, correctHash⟩ (List.range o.n) s
      cases he : phase4each o ⟨p.user, p.repo, correctHash⟩ (List.range o.n) s with
      | err e s' =>
        simp only [phase4, hl, he, StepResult.st]
        rw [he] at h4
        exact h4
      | crashed s' =>
        simp only [phase4, hl, he, StepResult.st]
        rw [he] at h4
        exact h4
      | ok a s' =>
        simp only [phase4, hl, he, StepResult.st]
        rw [he] at h4
        exact indexStep_trans h4 (ih s')

theorem indexStep_handleDirtyState (o : Oracle) (s : PassState) :
    IndexStep s (HandleDirtyState o s).st := by
  cases hfa : o.findActive with
  | error e =>
    simp only [HandleDirtyState, hfa, StepResult.st]
    exact indexStep_refl s
  | ok active =>
    have h1 := indexStep_phase1 o active (List.range o.n) s
    cases hp1 : phase1 o active (List.range o.n) s with
    | err e s1 =>
      simp only [HandleDirtyState, hfa, hp1, StepResult.st]
      rw [hp1] at h1
      exact h1
    | crashed s1 =>
      simp only [HandleDirtyState, hfa, hp1, StepResult.st]
      rw [hp1] at h1
      exact h1
    | ok a s1 =>
      rw [hp1] at h1
      have h2 := indexStep_phase2 o active s1
      cases hp2 : phase2 o active s1 with
      | err e s2 =>
        simp only [HandleDirtyState, hfa, hp1, hp2, StepResult.st]
        rw [hp2] at h2
        exact indexStep_trans h1 h2
      | crashed s2 =>
        simp only [HandleDirtyState, hfa, hp1, hp2, StepResult.st]
        rw [hp2] at h2
        exact indexStep_trans h1 h2
      | ok a2 s2 =>
        rw [hp2] at h2
        have h3 := indexStep_phase3 o active s2
        cases hp3 : phase3 o active s2 with
        | err e s3 =>
          simp only [HandleDirtyState, hfa, hp1, hp2, hp3, StepResult.st]
          rw [hp3] at h3
          exact indexStep_trans h1 (indexStep_trans h2 h3)
        | crashed s3 =>
          simp only [HandleDirtyState, hfa, hp1, hp2, hp3, StepResult.st]
          rw [hp3] at h3
          exact indexStep_trans h1 (indexStep_trans h2 h3)
        | ok a3 s3 =>
          rw [hp3] at h3
          have h4 := indexStep_phase4 o active s3
          simp only [HandleDirtyState, hfa, hp1, hp2, hp3]
          exact indexStep_trans h1 (indexStep_trans h2 (indexStep_trans h3 h4))

/-! ### Error short-circuiting: every failed RPC is the last trace entry -/

/-- Every RPC in the trace fragment succeeded. -/
def okTrace (t : List RPC) : Prop := ∀ a ∈ t, rpcFailure a = none

theorem okTrace_nil : okTrace [] := fun a ha => absurd ha (List.not_mem_nil a)

theorem okTrace_append {d₁ d₂ : List RPC} (h₁ : okTrace d₁) (h₂ : okTrace d₂) :
    okTrace (d₁ ++ d₂) := by
  intro a ha
  rcases List.mem_append.mp ha with h | h
  · exact h₁ a h
  · exact h₂ a h

theorem okTrace_single {a : RPC} (h : rpcFailure a = none) : okTrace [a] := by
  intro b hb
  rw [List.mem_singleton.mp hb]
  exact h

/-- A step starting from `s` is clean: on success or panic it appends only
successful RPCs to the trace; on an error `e` it appends successful RPCs
followed by exactly one failing RPC, which failed with `e` — no RPC is
issued after the failure. -/
def CleanRun {α : Type} (s : PassState) (r : StepResult α) : Prop :=
  (∀ (a : α) (s' : PassState), r = .ok a s' →
    ∃ d, s'.trace = s.trace ++ d ∧ okTrace d)
  ∧ (∀ s' : PassState, r = .crashed s' →
    ∃ d, s'.trace = s.trace ++ d ∧ okTrace d)
  ∧ (∀ (e : Err) (s' : PassState), r = .err e s' →
    ∃ d last, s'.trace = s.trace ++ (d ++ [last]) ∧ okTrace d ∧ rpcFailure last = some e)

theorem cleanRun_of_ok {α : Type} {s s' : PassState} (a : α) (d : List RPC)
    (hd : s'.trace = s.trace ++ d) (hok : okTrace d) : CleanRun s (.ok a s') := by
  refine ⟨fun a₂ s₂ h => ?_, fun s₂ h => StepResult.noConfusion h,
    fun e s₂ h => StepResult.noConfusion h⟩
  injection h with h1 h2
  subst h2
  exact ⟨d, hd, hok⟩

theorem cleanRun_of_crashed {s s' : PassState} (d : List RPC)
    (hd : s'.trace = s.trace ++ d) (hok : okTrace d) :
    CleanRun (α := Unit) s (.crashed s') := by
  refine ⟨fun a₂ s₂ h => StepResult.noConfusion h, fun s₂ h => ?_,
    fun e s₂ h => StepResult.noConfusion h⟩
  injection h with h1
  subst h1
  exact ⟨d, hd, hok⟩

theorem cleanRun_of_crashed' {α : Type} {s s' : PassState} (d : List RPC)
    (hd : s'.trace = s.trace ++ d) (hok : okTrace d) :
    CleanRun (α := α) s (.crashed s') := by
  refine ⟨fun a₂ s₂ h => StepResult.noConfusion h, fun s₂ h => ?_,
    fun e s₂ h => StepResult.noConfusion h⟩
  injection h with h1
  subst h1
  exact ⟨d, hd, hok⟩

theorem cleanRun_of_err {α : Type} {s s' : PassState} (e : Err) (d : List RPC) (last : RPC)
    (hd : s'.trace = s.trace ++ (d ++ [last])) (hok : okTrace d)
    (hl : rpcFailure last = some e) : CleanRun (α := α) s (.err e s') := by
  refine ⟨fun a₂ s₂ h => StepResult.noConfusion h, fun s₂ h => StepResult.noConfusion h,
    fun e₂ s₂ h => ?_⟩
  injection h with h1 h2
  subst h1
  subst h2
  exact ⟨d, last, hd, hok, hl⟩

theorem cleanRun_pure {α : Type} (s : PassState) (a : α) : CleanRun s (.ok a s) :=
  cleanRun_of_ok a [] (List.append_nil _).symm okTrace_nil

theorem cleanRun_mono {α : Type} {s s' : PassState} {r : StepResult α} (d : List RPC)
    (hd : s'.trace = s.trace ++ d) (hok : okTrace d) (h : CleanRun s' r) :
    CleanRun s r := by
  obtain ⟨h1, h2, h3⟩ := h
  refine ⟨fun a s₂ hr => ?_, fun s₂ hr => ?_, fun e s₂ hr => ?_⟩
  · obtain ⟨d₂, hd₂, hok₂⟩ := h1 a s₂ hr
    exact ⟨d ++ d₂, by rw [hd₂, hd, List.append_assoc], okTrace_append hok hok₂⟩
  · obtain ⟨d₂, hd₂, hok₂⟩ := h2 s₂ hr
    exact ⟨d ++ d₂, by rw [hd₂, hd, List.append_assoc], okTrace_append hok hok₂⟩
  · obtain ⟨d₂, last, hd₂, hok₂, hl⟩ := h3 e s₂ hr
    refine ⟨d ++ d₂, last, ?_, okTrace_append hok hok₂, hl⟩
    rw [hd₂, hd, List.append_assoc, List.append_assoc]

theorem snoc_eq {t base : List RPC} (d : List RPC) (x : RPC) (h : t = base ++ d) :
    t ++ [x] = base ++ (d ++ [x]) := by
  rw [h, List.append_assoc]

theorem cleanRun_err_retype {α β : Type} {s s' : PassState} {e : Err}
    (h : CleanRun (α := α) s (.err e s')) : CleanRun (α := β) s (.err e s') := by
  obtain ⟨_, _, h3⟩ := h
  obtain ⟨d, last, hd, hok, hl⟩ := h3 e s' rfl
  exact cleanRun_of_err e d last hd hok hl

theorem cleanRun_crashed_retype {α β : Type} {s s' : PassState}
    (h : CleanRun (α := α) s (.crashed s')) : CleanRun (α := β) s (.crashed s') := by
  obtain ⟨_, h2, _⟩ := h
  obtain ⟨d, hd, hok⟩ := h2 s' rfl
  exact cleanRun_of_crashed' d hd hok

theorem cleanRun_doStatus (o : Oracle) (s : PassState) (w : Nat) :
    CleanRun s (doStatus o s w) := by
  rcases doStatus_cases o s w with ⟨e, he⟩ | he <;> rw [he]
  · exact cleanRun_of_err e [] (RPC.status w (some e)) rfl okTrace_nil rfl
  · exact cleanRun_of_ok _ [RPC.status w none] rfl (okTrace_single rfl)

theorem cleanRun_doActivate (o : Oracle) (s : PassState) (w : Nat) (id : ComponentID) :
    CleanRun s (doActivate o s w id) := by
  rcases doActivate_cases o s w id with ⟨e, he⟩ | ⟨rh, hrh, he⟩ <;> rw [he]
  · exact cleanRun_of_err e [] (RPC.activate w id (.error e)) rfl okTrace_nil rfl
  · exact cleanRun_of_ok _ [RPC.activate w id (.ok rh)] rfl (okTrace_single rfl)

theorem cleanRun_doDeactivate (o : Oracle) (s : PassState) (w : Nat) (id : ComponentID) :
    CleanRun s (doDeactivate o s w id) := by
  rcases doDeactivate_cases o s w id with ⟨e, he⟩ | he <;> rw [he]
  · exact cleanRun_of_err e [] (RPC.deactivate w id (.error e)) rfl okTrace_nil rfl
  · exact cleanRun_of_ok _ [RPC.deactivate w id (.ok ())] rfl (okTrace_single rfl)

theorem cleanRun_deactivateList (o : Oracle) (w : Nat) :
    ∀ (ids : List ComponentID) (s : PassState), CleanRun s (deactivateList o w ids s) := by
  intro ids
  induction ids with
  | nil => intro s; exact cleanRun_pure s ()
  | cons id rest ih =>
    intro s
    have hd := cleanRun_doDeactivate o s w id
    cases hres : doDeactivate o s w id with
    | ok a s' =>
      simp only [deactivateList, hres]
      rw [hres] at hd
      obtain ⟨d, hdtr, hok⟩ := hd.1 a s' rfl
      exact cleanRun_mono d hdtr hok (ih s')
    | err e s' =>
      simp only [deactivateList, hres]
      rw [hres] at hd
      exact hd
    | crashed s' =>
      simp only [deactivateList, hres]
      rw [hres] at hd
      exact hd

theorem cleanRun_deactivateNonactive (o : Oracle) (w : Nat) (active : List ComponentPath)
    (s : PassState) : CleanRun s (deactivateNonactive o w active s) := by
  have hd := cleanRun_doStatus o s w
  cases hres : doStatus o s w with
  | ok st s' =>
    simp only [deactivateNonactive, hres]
    rw [hres] at hd
    obtain ⟨d, hdtr, hok⟩ := hd.1 st s' rfl
    exact cleanRun_mono d hdtr hok (cleanRun_deactivateList o w _ s')
  | err e s' =>
    simp only [deactivateNonactive, hres]
    rw [hres] at hd
    exact cleanRun_err_retype hd
  | crashed s' =>
    simp only [deactivateNonactive, hres]
    rw [hres] at hd
    exact cleanRun_crashed_retype hd

theorem cleanRun_amScan (o : Oracle) (path : ComponentPath) :
    ∀ (ws : List Nat) (s : PassState), CleanRun s (amScan o path ws s) := by
  intro ws
  induction ws with
  | nil => intro s; exact cleanRun_pure s false
  | cons w rest ih =>
    intro s
    have hd := cleanRun_doStatus o s w
    cases hres : doStatus o s w with
    | ok st s' =>
      simp only [amScan, hres]
      rw [hres] at hd
      obtain ⟨d, hdtr, hok⟩ := hd.1 st s' rfl
      by_cases hcp : st.ContainsPath path = true
      · rw [if_pos hcp]
        exact cleanRun_of_ok true d hdtr hok
      · rw [if_neg hcp]
        exact cleanRun_mono d hdtr hok (ih s')
    | err e s' =>
      simp only [amScan, hres]
      rw [hres] at hd
      exact cleanRun_err_retype hd
    | crashed s' =>
      simp only [amScan, hres]
      rw [hres] at hd
      exact cleanRun_crashed_retype hd

theorem cleanRun_activateMissing (o : Oracle) (cid : ComponentID) (s : PassState) :
    CleanRun s (activateMissing o cid s) := by
  have hscan := cleanRun_amScan o ⟨cid.user, cid.repo⟩ (List.range o.n) s
  cases hres : amScan o ⟨cid.user, cid.repo⟩ (List.range o.n) s with
  | err e s' =>
    simp only [activateMissing, hres]
    rw [hres] at hscan
    exact cleanRun_err_retype hscan
  | crashed s' =>
    simp only [activateMissing, hres]
    rw [hres] at hscan
    exact cleanRun_crashed_retype hscan
  | ok found s' =>
    rw [hres] at hscan
    obtain ⟨d, hdtr, hok⟩ := hscan.1 found s' rfl
    cases found with
    | true =>
      simp only [activateMissing, hres]
      exact cleanRun_of_ok () d hdtr hok
    | false =>
      rcases randIntn_cases o s' o.n with ⟨h0, hr⟩ | ⟨h0, hr⟩
      · simp only [activateMissing, hres, hr]
        exact cleanRun_of_crashed d hdtr hok
      · rcases doActivate_cases o { s' with rctr := s'.rctr + 1 } (o.rand s'.rctr % o.n) cid
          with ⟨e, hact⟩ | ⟨rh, hrh, hact⟩
        · simp only [activateMissing, hres, hr, hact]
          exact cleanRun_of_err e d (RPC.activate (o.rand s'.rctr % o.n) cid (.error e))
            (snoc_eq d _ hdtr) hok rfl
        · by_cases hh : cid.hash = headHashSentinel
          · simp only [activateMissing, hres, hr, hact, if_pos hh]
            exact cleanRun_of_ok () (d ++ [RPC.activate (o.rand s'.rctr % o.n) cid (.ok rh)])
              (snoc_eq d _ hdtr) (okTrace_append hok (okTrace_single rfl))
          · simp only [activateMissing, hres, hr, hact, if_neg hh]
            exact cleanRun_of_ok () (d ++ [RPC.activate (o.rand s'.rctr % o.n) cid (.ok rh)])
              (snoc_eq d _ hdtr) (okTrace_append hok (okTrace_single rfl))

theorem cleanRun_esScan (o : Oracle) (cid : ComponentID) (cp : ComponentPath) :
    ∀ (ws acc : List Nat) (s : PassState), CleanRun s (esScan o cid cp ws acc s) := by
  intro ws
  induction ws with
  | nil => intro acc s; exact cleanRun_pure s (some acc)
  | cons w rest ih =>
    intro acc s
    have hd := cleanRun_doStatus o s w
    cases hres : doStatus o s w with
    | ok st s' =>
      simp only [esScan, hres]
      rw [hres] at hd
      obtain ⟨d, hdtr, hok⟩ := hd.1 st s' rfl
      by_cases hex : st.ContainsExactly cid = true
      · rw [if_pos hex]
        exact cleanRun_of_ok none d hdtr hok
      · rw [if_neg hex]
        by_cases hcp : st.ContainsPath cp = true
        · rw [if_pos hcp]
          exact cleanRun_mono d hdtr hok (ih acc s')
        · rw [if_neg hcp]
          exact cleanRun_mono d hdtr hok (ih (acc ++ [w]) s')
    | err e s' =>
      simp only [esScan, hres]
      rw [hres] at hd
      exact cleanRun_err_retype hd
    | crashed s' =>
      simp only [esScan, hres]
      rw [hres] at hd
      exact cleanRun_crashed_retype hd

theorem cleanRun_esPick (o : Oracle) (s : PassState) (nr : List Nat) (cid : ComponentID) :
    CleanRun s (esPick o s nr cid) := by
  unfold esPick
  by_cases hlen : nr.length > 0
  · rw [if_pos hlen]
    rcases randIntn_cases o s nr.length with ⟨h0, hr⟩ | ⟨h0, hr⟩ <;> simp only [hr]
    · exact cleanRun_of_crashed' [] (List.append_nil _).symm okTrace_nil
    · exact cleanRun_of_ok _ [] (List.append_nil _).symm okTrace_nil
  · rw [if_neg hlen]
    rcases randIntn_cases o s o.n with ⟨h0, hr⟩ | ⟨h0, hr⟩ <;> simp only [hr]
    · exact cleanRun_of_crashed' [] (List.append_nil _).symm okTrace_nil
    · rcases doDeactivate_cases o { s with rctr := s.rctr + 1 } (o.rand s.rctr % o.n) cid
        with ⟨e, hdc⟩ | hdc <;> simp only [hdc]
      · exact cleanRun_of_err e [] (RPC.deactivate (o.rand s.rctr % o.n) cid (.error e))
          rfl okTrace_nil rfl
      · exact cleanRun_of_ok _ [RPC.deactivate (o.rand s.rctr % o.n) cid (.ok ())]
          rfl (okTrace_single rfl)

theorem cleanRun_eswir (o : Oracle) (cid : ComponentID) (s : PassState) :
    CleanRun s (ensureSomeWorkerIsRunning o cid s) := by
  have hscan := cleanRun_esScan o cid ⟨cid.user, cid.repo⟩ (List.range o.n) [] s
  cases hres : esScan o cid ⟨cid.user, cid.repo⟩ (List.range o.n) [] s with
  | err e s' =>
    simp only [ensureSomeWorkerIsRunning, hres]
    rw [hres] at hscan
    exact cleanRun_err_retype hscan
  | crashed s' =>
    simp only [ensureSomeWorkerIsRunning, hres]
    rw [hres] at hscan
    exact cleanRun_crashed_retype hscan
  | ok found s' =>
    rw [hres] at hscan
    obtain ⟨d, hdtr, hok⟩ := hscan.1 found s' rfl
    cases found with
    | none =>
      simp only [ensureSomeWorkerIsRunning, hres]
      exact cleanRun_of_ok () d hdtr hok
    | some nr =>
      have hpick := cleanRun_esPick o s' nr cid
      cases hres2 : esPick o s' nr cid with
      | err e s'' =>
        simp only [ensureSomeWorkerIsRunning, hres, hres2]
        rw [hres2] at hpick
        exact cleanRun_mono d hdtr hok (cleanRun_err_retype hpick)
      | crashed s'' =>
        simp only [ensureSomeWorkerIsRunning, hres, hres2]
        rw [hres2] at hpick
        exact cleanRun_mono d hdtr hok (cleanRun_crashed_retype hpick)
      | ok target s'' =>
        rw [hres2] at hpick
        obtain ⟨d₂, hdtr₂, hok₂⟩ := hpick.1 target s'' rfl
        have hdpre : s''.trace = s.trace ++ (d ++ d₂) := by
          rw [hdtr₂, hdtr, List.append_assoc]
        have hokpre : okTrace (d ++ d₂) := okTrace_append hok hok₂
        rcases doActivate_cases o s'' target cid with ⟨e, hact⟩ | ⟨rh, hrh, hact⟩
        · simp only [ensureSomeWorkerIsRunning, hres, hres2, hact]
          exact cleanRun_of_err e (d ++ d₂) (RPC.activate target cid (.error e))
            (snoc_eq (d ++ d₂) _ hdpre) hokpre rfl
        · by_cases hh : cid.hash = headHashSentinel
          · simp only [ensureSomeWorkerIsRunning, hres, hres2, hact, if_pos hh]
            exact cleanRun_of_ok () ((d ++ d₂) ++ [RPC.activate target cid (.ok rh)])
              (snoc_eq (d ++ d₂) _ hdpre) (okTrace_append hokpre (okTrace_single rfl))
          · simp only [ensureSomeWorkerIsRunning, hres, hres2, hact, if_neg hh]
            exact cleanRun_of_ok () ((d ++ d₂) ++ [RPC.activate target cid (.ok rh)])
              (snoc_eq (d ++ d₂) _ hdpre) (okTrace_append hokpre (okTrace_single rfl))

theorem cleanRun_dihdLoop (o : Oracle) (w : Nat) (cid : ComponentID) :
    ∀ (running : List ComponentID) (s : PassState),
      CleanRun s (dihdLoop o w cid running s) := by
  intro running
  induction running with
  | nil => intro s; exact cleanRun_pure s ()
  | cons rc rest ih =>
    intro s
    by_cases hc : (rc.user == cid.user && rc.repo == cid.repo && !(rc.hash == cid.hash)) = true
    · simp only [dihdLoop]
      rw [if_pos hc]
      have hd := cleanRun_doDeactivate o s w rc
      cases hres : doDeactivate o s w rc with
      | ok a s' =>
        simp only [hres]
        rw [hres] at hd
        obtain ⟨d, hdtr, hok⟩ := hd.1 a s' rfl
        exact cleanRun_mono d hdtr hok (ih s')
      | err e s' =>
        simp only [hres]
        rw [hres] at hd
        exact hd
      | crashed s' =>
        simp only [hres]
        rw [hres] at hd
        exact hd
    · simp only [dihdLoop]
      rw [if_neg hc]
      exact ih s

theorem cleanRun_deactivateIfHashDiffers (o : Oracle) (w : Nat) (cid : ComponentID)
    (s : PassState) : CleanRun s (deactivateIfHashDiffers o w cid s) := by
  have hd := cleanRun_doStatus o s w
  cases hres : doStatus o s w with
  | ok st s' =>
    simp only [deactivateIfHashDiffers, hres]
    rw [hres] at hd
    obtain ⟨d, hdtr, hok⟩ := hd.1 st s' rfl
    exact cleanRun_mono d hdtr hok (cleanRun_dihdLoop o w cid _ s')
  | err e s' =>
    simp only [deactivateIfHashDiffers, hres]
    rw [hres] at hd
    exact cleanRun_err_retype hd
  | crashed s' =>
    simp only [deactivateIfHashDiffers, hres]
    rw [hres] at hd
    exact cleanRun_crashed_retype hd

theorem cleanRun_phase1 (o : Oracle) (active : List ComponentPath) :
    ∀ (ws : List Nat) (s : PassState), CleanRun s (phase1 o active ws s) := by
  intro ws
  induction ws with
  | nil => intro s; exact cleanRun_pure s ()
  | cons w rest ih =>
    intro s
    have hd := cleanRun_deactivateNonactive o w active s
    cases hres : deactivateNonactive o w active s with
    | ok a s' =>
      simp only [phase1, hres]
      rw [hres] at hd
      obtain ⟨d, hdtr, hok⟩ := hd.1 a s' rfl
      exact cleanRun_mono d hdtr hok (ih s')
    | err e s' =>
      simp only [phase1, hres]
      rw [hres] at hd
      exact hd
    | crashed s' =>
      simp only [phase1, hres]
      rw [hres] at hd
      exact hd

theorem cleanRun_phase2 (o : Oracle) :
    ∀ (active : List ComponentPath) (s : PassState), CleanRun s (phase2 o active s) := by
  intro active
  induction active with
  | nil => intro s; exact cleanRun_pure s ()
  | cons p rest ih =>
    intro s
    have hd := cleanRun_activateMissing o
      ⟨p.user, p.repo, (lookupHash s.pathHashes p).getD headHashSentinel⟩ s
    cases hres : activateMissing o
        ⟨p.user, p.repo, (lookupHash s.pathHashes p).getD headHashSentinel⟩ s with
    | ok a s' =>
      simp only [phase2, hres]
      rw [hres] at hd
      obtain ⟨d, hdtr, hok⟩ := hd.1 a s' rfl
      exact cleanRun_mono d hdtr hok (ih s')
    | err e s' =>
      simp only [phase2, hres]
      rw [hres] at hd
      exact hd
    | crashed s' =>
      simp only [phase2, hres]
      rw [hres] at hd
      exact hd

theorem cleanRun_phase3 (o : Oracle) :
    ∀ (active : List ComponentPath) (s : PassState), CleanRun s (phase3 o active s) := by
  intro active
  induction active with
  | nil => intro s; exact cleanRun_pure s ()
  | cons p rest ih =>
    intro s
    cases hl : lookupHash s.pathHashes p with
    | none =>
      simp only [phase3, hl]
      exact ih s
    | some correctHash =>
      have hd := cleanRun_eswir o ⟨p.user, p.repo, correctHash⟩ s
      cases hres : ensureSomeWorkerIsRunning o ⟨p.user, p.repo, correctHash⟩ s with
      | ok a s' =>
        simp only [phase3, hl, hres]
        rw [hres] at hd
        obtain ⟨d, hdtr, hok⟩ := hd.1 a s' rfl
        exact cleanRun_mono d hdtr hok (ih s')
      | err e s' =>
        simp only [phase3, hl, hres]
        rw [hres] at hd
        exact hd
      | crashed s' =>
        simp only [phase3, hl, hres]
        rw [hres] at hd
        exact hd

theorem cleanRun_phase4each (o : Oracle) (cid : ComponentID) :
    ∀ (ws : List Nat) (s : PassState), CleanRun s (phase4each o cid ws s) := by
  intro ws
  induction ws with
  | nil => intro s; exact cleanRun_pure s ()
  | cons w rest ih =>
    intro s
    have hd := cleanRun_deactivateIfHashDiffers o w cid s
    cases hres : deactivateIfHashDiffers o w cid s with
    | ok a s' =>
      simp only [phase4each, hres]
      rw [hres] at hd
      obtain ⟨d, hdtr, hok⟩ := hd.1 a s' rfl
      exact cleanRun_mono d hdtr hok (ih s')
    | err e s' =>
      simp only [phase4each, hres]
      rw [hres] at hd
      exact hd
    | crashed s' =>
      simp only [phase4each, hres]
      rw [hres] at hd
      exact hd

theorem cleanRun_phase4 (o : Oracle) :
    ∀ (active : List ComponentPath) (s : PassState), CleanRun s (phase4 o active s) := by
  intro active
  induction active with
  | nil => intro s; exact cleanRun_pure s ()
  | cons p rest ih =>
    intro s
    cases hl : lookupHash s.pathHashes p with
    | none =>
      simp only [phase4, hl]
      exact ih s
    | some correctHash =>
      have hd := cleanRun_phase4each o ⟨p.user, p.repo, correctHash⟩ (List.range o.n) s
      cases hres : phase4each o ⟨p.user, p.repo, correctHash⟩ (List.range o.n) s with
      | ok a s' =>
        simp only [phase4, hl, hres]
        rw [hres] at hd
        obtain ⟨d, hdtr, hok⟩ := hd.1 a s' rfl
        exact cleanRun_mono d hdtr hok (ih s')
      | err e s' =>
        simp only [phase4, hl, hres]
        rw [hres] at hd
        exact hd
      | crashed s' =>
        simp only [phase4, hl, hres]
        rw [hres] at hd
        exact hd

theorem cleanRun_phaseChain (o : Oracle) (active : List ComponentPath) (s : PassState) :
    CleanRun s (match phase1 o active (List.range o.n) s with
      | .err e s1 => .err e s1
      | .crashed s1 => .crashed s1
      | .ok _ s1 =>
        match phase2 o active s1 with
        | .err e s2 => .err e s2
        | .crashed s2 => .crashed s2
        | .ok _ s2 =>
          match phase3 o active s2 with
          | .err e s3 => .err e s3
          | .crashed s3 => .crashed s3
          | .ok _ s3 => phase4 o active s3) := by
  have h1 := cleanRun_phase1 o active (List.range o.n) s
  cases hp1 : phase1 o active (List.range o.n) s with
  | err e s1 => simp only [hp1]; rw [hp1] at h1; exact h1
  | crashed s1 => simp only [hp1]; rw [hp1] at h1; exact h1
  | ok a s1 =>
    simp only [hp1]
    rw [hp1] at h1
    obtain ⟨d1, hd1, hok1⟩ := h1.1 a s1 rfl
    have h2 := cleanRun_phase2 o active s1
    cases hp2 : phase2 o active s1 with
    | err e s2 =>
      simp only [hp2]
      rw [hp2] at h2
      exact cleanRun_mono d1 hd1 hok1 h2
    | crashed s2 =>
      simp only [hp2]
      rw [hp2] at h2
      exact cleanRun_mono d1 hd1 hok1 h2
    | ok a2 s2 =>
      simp only [hp2]
      rw [hp2] at h2
      obtain ⟨d2, hd2, hok2⟩ := h2.1 a2 s2 rfl
      have hpre2 : s2.trace = s.trace ++ (d1 ++ d2) := by
        rw [hd2, hd1, List.append_assoc]
      have hokpre2 : okTrace (d1 ++ d2) := okTrace_append hok1 hok2
      have h3 := cleanRun_phase3 o active s2
      cases hp3 : phase3 o active s2 with
      | err e s3 =>
        simp only [hp3]
        rw [hp3] at h3
        exact cleanRun_mono (d1 ++ d2) hpre2 hokpre2 h3
      | crashed s3 =>
        simp only [hp3]
        rw [hp3] at h3
        exact cleanRun_mono (d1 ++ d2) hpre2 hokpre2 h3
      | ok a3 s3 =>
        simp only [hp3]
        rw [hp3] at h3
        obtain ⟨d3, hd3, hok3⟩ := h3.1 a3 s3 rfl
        have hpre3 : s3.trace = s.trace ++ ((d1 ++ d2) ++ d3) := by
          rw [hd3, hpre2, List.append_assoc]
        have hokpre3 : okTrace ((d1 ++ d2) ++ d3) := okTrace_append hokpre2 hok3
        exact cleanRun_mono ((d1 ++ d2) ++ d3) hpre3 hokpre3 (cleanRun_phase4 o active s3)

/-! ### Bridges between `statusOf` and raw fleet contents -/

/-- Some component of `l` has path `q`. -/
def runsPath (l : List ComponentID) (q : ComponentPath) : Bool :=
  l.any fun c => c.user == q.user && c.repo == q.repo

/-- Some component of `l` is exactly `cid`. -/
def runsExact (l : List ComponentID) (cid : ComponentID) : Bool :=
  l.any fun c => c == cid

theorem any_over_mkStats (l : List ComponentID) (p : ComponentID → Bool) :
    ((l.map fun id => (⟨id, "", 0, 0, 0, 0, []⟩ : ComponentStats)).any fun rc => p rc.id) =
      l.any p := by
  induction l with
  | nil => rfl
  | cons c t ih => simp only [List.map_cons, List.any_cons, ih]

theorem filter_over_mkStats (l : List ComponentID) (p : ComponentID → Bool) :
    (((l.map fun id => (⟨id, "", 0, 0, 0, 0, []⟩ : ComponentStats)).filter
        fun rc => p rc.id).map (·.id)) = l.filter p := by
  induction l with
  | nil => rfl
  | cons c t ih =>
    by_cases hc : p c = true <;>
      simp only [List.map_cons, List.filter_cons, hc, if_pos, if_neg, Bool.false_eq_true,
        ite_true, ite_false, List.map_cons, ih]

theorem statusOf_containsPath (f : Nat → List ComponentID) (w : Nat) (q : ComponentPath) :
    (statusOf f w).ContainsPath q = runsPath (f w) q :=
  any_over_mkStats (f w) fun c => c.user == q.user && c.repo == q.repo

theorem statusOf_containsExactly (f : Nat → List ComponentID) (w : Nat) (cid : ComponentID) :
    (statusOf f w).ContainsExactly cid = runsExact (f w) cid :=
  any_over_mkStats (f w) fun c => c == cid

theorem statusOf_findNonactive (f : Nat → List ComponentID) (w : Nat)
    (active : List ComponentPath) :
    (statusOf f w).FindNonactive active = (f w).filter fun c => !contains active c :=
  filter_over_mkStats (f w) fun c => !contains active c

theorem statusOf_ids (f : Nat → List ComponentID) (w : Nat) :
    (statusOf f w).activeComponents.map (·.id) = f w := by
  show ((f w).map _).map _ = f w
  induction f w with
  | nil => rfl
  | cons c t ih => simp only [List.map_cons, ih]

theorem contains_of_mem {active : List ComponentPath} {c : ComponentID}
    (h : (⟨c.user, c.repo⟩ : ComponentPath) ∈ active) : contains active c = true := by
  simp only [contains, List.any_eq_true]
  exact ⟨⟨c.user, c.repo⟩, h, by simp⟩

theorem runsPath_of_runsExact {l : List ComponentID} {u r h : String}
    (hx : runsExact l ⟨u, r, h⟩ = true) : runsPath l ⟨u, r⟩ = true := by
  simp only [runsExact, List.any_eq_true] at hx
  obtain ⟨c, hc, hceq⟩ := hx
  have hce : c = ⟨u, r, h⟩ := by simpa using hceq
  subst hce
  simp only [runsPath, List.any_eq_true]
  exact ⟨⟨u, r, h⟩, hc, by simp⟩

/-- `doStatus` under a failure-free oracle. -/
theorem doStatus_ok (o : Oracle) (s : PassState) (w : Nat) (hE : ∀ k, o.rpcErr k = none) :
    doStatus o s w = .ok (statusOf s.fleet w) (bumpStatus s w) := by
  unfold doStatus
  rw [hE s.ctr]
  rfl

/-! ### Status-only runs: a step that issues no Activate/Deactivate -/

/-- `s'` is `s` after some successful status queries: same fleet, same
version index, same random counter, and a trace extended by non-write
entries only. -/
def stOnly (s s' : PassState) : Prop :=
  s'.fleet = s.fleet ∧ s'.pathHashes = s.pathHashes ∧ s'.rctr = s.rctr ∧
    ∃ d, s'.trace = s.trace ++ d ∧ ∀ a ∈ d, isWrite a = false

theorem stOnly_refl (s : PassState) : stOnly s s :=
  ⟨rfl, rfl, rfl, [], (List.append_nil _).symm, fun a ha => absurd ha (List.not_mem_nil a)⟩

theorem stOnly_trans {s1 s2 s3 : PassState} (h12 : stOnly s1 s2) (h23 : stOnly s2 s3) :
    stOnly s1 s3 := by
  obtain ⟨hf12, hp12, hr12, d12, ht12, hw12⟩ := h12
  obtain ⟨hf23, hp23, hr23, d23, ht23, hw23⟩ := h23
  refine ⟨hf23.trans hf12, hp23.trans hp12, hr23.trans hr12, d12 ++ d23, ?_, ?_⟩
  · rw [ht23, ht12, List.append_assoc]
  · intro a ha
    rcases List.mem_append.mp ha with h | h
    · exact hw12 a h
    · exact hw23 a h

theorem stOnly_bump (s : PassState) (w : Nat) : stOnly s (bumpStatus s w) :=
  ⟨rfl, rfl, rfl, [RPC.status w none], rfl,
    fun a ha => by rw [List.mem_singleton.mp ha]; rfl⟩

/-! ### Phase no-op lemmas on a converged fleet -/

theorem deactivateNonactive_noop (o : Oracle) (w : Nat) (active : List ComponentPath)
    (s : PassState) (hE : ∀ k, o.rpcErr k = none)
    (hall : ∀ c ∈ s.fleet w, contains active c = true) :
    deactivateNonactive o w active s = .ok () (bumpStatus s w) := by
  simp only [deactivateNonactive, doStatus_ok o s w hE]
  have hfn : (statusOf s.fleet w).FindNonactive active = [] := by
    rw [statusOf_findNonactive]
    apply List.filter_eq_nil_iff.mpr
    intro c hc
    simp [hall c hc]
  rw [hfn]
  rfl

theorem phase1_noop (o : Oracle) (active : List ComponentPath)
    (hE : ∀ k, o.rpcErr k = none) :
    ∀ (ws : List Nat) (s : PassState),
      (∀ w ∈ ws, ∀ c ∈ s.fleet w, contains active c = true) →
      ∃ s', phase1 o active ws s = .ok () s' ∧ stOnly s s' := by
  intro ws
  induction ws with
  | nil => intro s _; exact ⟨s, rfl, stOnly_refl s⟩
  | cons w rest ih =>
    intro s hall
    have hdna := deactivateNonactive_noop o w active s hE
      (hall w (List.mem_cons_self w rest))
    obtain ⟨s', hrest, hst⟩ := ih (bumpStatus s w)
      (fun w' hw' c hc => hall w' (List.mem_cons_of_mem w hw') c hc)
    refine ⟨s', ?_, stOnly_trans (stOnly_bump s w) hst⟩
    simp only [phase1, hdna, hrest]

theorem amScan_finds (o : Oracle) (q : ComponentPath) (hE : ∀ k, o.rpcErr k = none) :
    ∀ (ws : List Nat) (s : PassState),
      (∃ w ∈ ws, runsPath (s.fleet w) q = true) →
      ∃ s', amScan o q ws s = .ok true s' ∧ stOnly s s' := by
  intro ws
  induction ws with
  | nil =>
    intro s hex
    obtain ⟨w, hw, _⟩ := hex
    exact absurd hw (List.not_mem_nil w)
  | cons w rest ih =>
    intro s hex
    simp only [amScan, doStatus_ok o s w hE]
    by_cases hcp : (statusOf s.fleet w).ContainsPath q = true
    · rw [if_pos hcp]
      exact ⟨bumpStatus s w, rfl, stOnly_bump s w⟩
    · rw [if_neg hcp]
      have hwfalse : runsPath (s.fleet w) q = false := by
        rw [← statusOf_containsPath]
        exact Bool.not_eq_true _ ▸ hcp
      have hex' : ∃ w' ∈ rest, runsPath ((bumpStatus s w).fleet w') q = true := by
        obtain ⟨w', hw', hrun⟩ := hex
        rcases List.mem_cons.mp hw' with h | h
        · subst h
          rw [hwfalse] at hrun
          exact absurd hrun (by simp)
        · exact ⟨w', h, hrun⟩
      obtain ⟨s', hscan, hst⟩ := ih (bumpStatus s w) hex'
      exact ⟨s', hscan, stOnly_trans (stOnly_bump s w) hst⟩

theorem activateMissing_skip (o : Oracle) (cid : ComponentID) (s : PassState)
    (hE : ∀ k, o.rpcErr k = none)
    (hex : ∃ w ∈ List.range o.n, runsPath (s.fleet w) ⟨cid.user, cid.repo⟩ = true) :
    ∃ s', activateMissing o cid s = .ok () s' ∧ stOnly s s' := by
  obtain ⟨s', hscan, hst⟩ := amScan_finds o ⟨cid.user, cid.repo⟩ hE (List.range o.n) s hex
  refine ⟨s', ?_, hst⟩
  simp only [activateMissing, hscan]

theorem phase2_noop (o : Oracle) (hE : ∀ k, o.rpcErr k = none) :
    ∀ (active : List ComponentPath) (s : PassState),
      (∀ p ∈ active, ∃ w ∈ List.range o.n, runsPath (s.fleet w) ⟨p.user, p.repo⟩ = true) →
      ∃ s', phase2 o active s = .ok () s' ∧ stOnly s s' := by
  intro active
  induction active with
  | nil => intro s _; exact ⟨s, rfl, stOnly_refl s⟩
  | cons p rest ih =>
    intro s hall
    obtain ⟨s', ham, hst⟩ := activateMissing_skip o
      ⟨p.user, p.repo, (lookupHash s.pathHashes p).getD headHashSentinel⟩ s hE
      (hall p (List.mem_cons_self p rest))
    obtain ⟨hf, hp, hr, d, ht, hw⟩ := hst
    obtain ⟨s'', hrest, hst2⟩ := ih s' (by
      intro p' hp'
      rw [hf]
      exact hall p' (List.mem_cons_of_mem p hp'))
    refine ⟨s'', ?_, stOnly_trans ⟨hf, hp, hr, d, ht, hw⟩ hst2⟩
    simp only [phase2, ham, hrest]

theorem esScan_finds (o : Oracle) (cid : ComponentID) (cp : ComponentPath)
    (hE : ∀ k, o.rpcErr k = none) :
    ∀ (ws acc : List Nat) (s : PassState),
      (∃ w ∈ ws, runsExact (s.fleet w) cid = true) →
      ∃ s', esScan o cid cp ws acc s = .ok none s' ∧ stOnly s s' := by
  intro ws
  induction ws with
  | nil =>
    intro acc s hex
    obtain ⟨w, hw, _⟩ := hex
    exact absurd hw (List.not_mem_nil w)
  | cons w rest ih =>
    intro acc s hex
    simp only [esScan, doStatus_ok o s w hE]
    by_cases hx : (statusOf s.fleet w).ContainsExactly cid = true
    · rw [if_pos hx]
      exact ⟨bumpStatus s w, rfl, stOnly_bump s w⟩
    · rw [if_neg hx]
      have hwfalse : runsExact (s.fleet w) cid = false := by
        rw [← statusOf_containsExactly]
        exact Bool.not_eq_true _ ▸ hx
      have hex' : ∃ w' ∈ rest, runsExact ((bumpStatus s w).fleet w') cid = true := by
        obtain ⟨w', hw', hrun⟩ := hex
        rcases List.mem_cons.mp hw' with h | h
        · subst h
          rw [hwfalse] at hrun
          exact absurd hrun (by simp)
        · exact ⟨w', h, hrun⟩
      by_cases hcp : (statusOf s.fleet w).ContainsPath cp = true
      · rw [if_pos hcp]
        obtain ⟨s', hscan, hst⟩ := ih acc (bumpStatus s w) hex'
        exact ⟨s', hscan, stOnly_trans (stOnly_bump s w) hst⟩
      · rw [if_neg hcp]
        obtain ⟨s', hscan, hst⟩ := ih (acc ++ [w]) (bumpStatus s w) hex'
        exact ⟨s', hscan, stOnly_trans (stOnly_bump s w) hst⟩

theorem eswir_skip (o : Oracle) (cid : ComponentID) (s : PassState)
    (hE : ∀ k, o.rpcErr k = none)
    (hex : ∃ w ∈ List.range o.n, runsExact (s.fleet w) cid = true) :
    ∃ s', ensureSomeWorkerIsRunning o cid s = .ok () s' ∧ stOnly s s' := by
  obtain ⟨s', hscan, hst⟩ :=
    esScan_finds o cid ⟨cid.user, cid.repo⟩ hE (List.range o.n) [] s hex
  refine ⟨s', ?_, hst⟩
  simp only [ensureSomeWorkerIsRunning, hscan]

theorem phase3_noop (o : Oracle) (hE : ∀ k, o.rpcErr k = none) :
    ∀ (active : List ComponentPath) (s : PassState),
      (∀ p ∈ active, ∀ h : Hash, lookupHash s.pathHashes p = some h →
        ∃ w ∈ List.range o.n, runsExact (s.fleet w) ⟨p.user, p.repo, h⟩ = true) →
      ∃ s', phase3 o active s = .ok () s' ∧ stOnly s s' := by
  intro active
  induction active with
  | nil => intro s _; exact ⟨s, rfl, stOnly_refl s⟩
  | cons p rest ih =>
    intro s hall
    cases hl : lookupHash s.pathHashes p with
    | none =>
      obtain ⟨s', hrest, hst⟩ := ih s
        (fun p' hp' h hh => hall p' (List.mem_cons_of_mem p hp') h hh)
      refine ⟨s', ?_, hst⟩
      simp only [phase3, hl, hrest]
    | some h =>
      obtain ⟨s', hes, hst⟩ := eswir_skip o ⟨p.user, p.repo, h⟩ s hE
        (hall p (List.mem_cons_self p rest) h hl)
      obtain ⟨hf, hp, hr, d, ht, hw⟩ := hst
      obtain ⟨s'', hrest, hst2⟩ := ih s' (by
        intro p' hp' h' hh'
        rw [hf]
        rw [hp] at hh'
        exact hall p' (List.mem_cons_of_mem p hp') h' hh')
      refine ⟨s'', ?_, stOnly_trans ⟨hf, hp, hr, d, ht, hw⟩ hst2⟩
      simp only [phase3, hl, hes, hrest]

theorem dihdLoop_noop (o : Oracle) (w : Nat) (cid : ComponentID) :
    ∀ (running : List ComponentID) (s : PassState),
      (∀ rc ∈ running,
        (rc.user == cid.user && rc.repo == cid.repo && !(rc.hash == cid.hash)) = false) →
      dihdLoop o w cid running s = .ok () s := by
  intro running
  induction running with
  | nil => intro s _; rfl
  | cons rc rest ih =>
    intro s hall
    have hc := hall rc (List.mem_cons_self rc rest)
    simp only [dihdLoop]
    rw [if_neg (by simp [hc])]
    exact ih s (fun rc' hrc' => hall rc' (List.mem_cons_of_mem rc hrc'))

theorem dihd_noop (o : Oracle) (w : Nat) (cid : ComponentID) (s : PassState)
    (hE : ∀ k, o.rpcErr k = none)
    (hno : ∀ rc ∈ s.fleet w,
      (rc.user == cid.user && rc.repo == cid.repo && !(rc.hash == cid.hash)) = false) :
    deactivateIfHashDiffers o w cid s = .ok () (bumpStatus s w) := by
  simp only [deactivateIfHashDiffers, doStatus_ok o s w hE]
  rw [statusOf_ids]
  exact dihdLoop_noop o w cid (s.fleet w) (bumpStatus s w) hno

theorem phase4each_noop (o : Oracle) (cid : ComponentID) (hE : ∀ k, o.rpcErr k = none) :
    ∀ (ws : List Nat) (s : PassState),
      (∀ w ∈ ws, ∀ rc ∈ s.fleet w,
        (rc.user == cid.user && rc.repo == cid.repo && !(rc.hash == cid.hash)) = false) →
      ∃ s', phase4each o cid ws s = .ok () s' ∧ stOnly s s' := by
  intro ws
  induction ws with
  | nil => intro s _; exact ⟨s, rfl, stOnly_refl s⟩
  | cons w rest ih =>
    intro s hall
    have hd := dihd_noop o w cid s hE (hall w (List.mem_cons_self w rest))
    obtain ⟨s', hrest, hst⟩ := ih (bumpStatus s w)
      (fun w' hw' rc hrc => hall w' (List.mem_cons_of_mem w hw') rc hrc)
    refine ⟨s', ?_, stOnly_trans (stOnly_bump s w) hst⟩
    simp only [phase4each, hd, hrest]

theorem phase4_noop (o : Oracle) (hE : ∀ k, o.rpcErr k = none) :
    ∀ (active : List ComponentPath) (s : PassState),
      (∀ p ∈ active, ∀ h : Hash, lookupHash s.pathHashes p = some h →
        ∀ w ∈ List.range o.n, ∀ rc ∈ s.fleet w,
          (rc.user == p.user && rc.repo == p.repo && !(rc.hash == h)) = false) →
      ∃ s', phase4 o active s = .ok () s' ∧ stOnly s s' := by
  intro active
  induction active with
  | nil => intro s _; exact ⟨s, rfl, stOnly_refl s⟩
  | cons p rest ih =>
    intro s hall
    cases hl : lookupHash s.pathHashes p with
    | none =>
      obtain ⟨s', hrest, hst⟩ := ih s
        (fun p' hp' h hh => hall p' (List.mem_cons_of_mem p hp') h hh)
      refine ⟨s', ?_, hst⟩
      simp only [phase4, hl, hrest]
    | some h =>
      obtain ⟨s', h4e, hst⟩ := phase4each_noop o ⟨p.user, p.repo, h⟩ hE (List.range o.n) s
        (hall p (List.mem_cons_self p rest) h hl)
      obtain ⟨hf, hp, hr, d, ht, hw⟩ := hst
      obtain ⟨s'', hrest, hst2⟩ := ih s' (by
        intro p' hp' h' hh' w' hw' rc hrc
        rw [hf] at hrc
        rw [hp] at hh'
        exact hall p' (List.mem_cons_of_mem p hp') h' hh' w' hw' rc hrc)
      refine ⟨s'', ?_, stOnly_trans ⟨hf, hp, hr, d, ht, hw⟩ hst2⟩
      simp only [phase4, hl, h4e, hrest]

/-- The claim's notion of an already-converged fleet: every desired path has
a version-index entry, exactly one worker runs the correct-hash component,
every running version of a desired path is the correct-hash component, and
no worker runs a non-desired path. -/
def Converged (o : Oracle) (s : PassState) (active : List ComponentPath) : Prop :=
  (∀ p ∈ active, ∃ h : Hash, lookupHash s.pathHashes p = some h ∧
    ((List.range o.n).countP fun i => runsExact (s.fleet i) ⟨p.user, p.repo, h⟩) = 1 ∧
    ∀ i ∈ List.range o.n, ∀ c ∈ s.fleet i,
      c.user = p.user → c.repo = p.repo → c = ⟨p.user, p.repo, h⟩)
  ∧ ∀ i ∈ List.range o.n, ∀ c ∈ s.fleet i, (⟨c.user, c.repo⟩ : ComponentPath) ∈ active

theorem cond_false_of_unique {p : ComponentPath} {h : Hash} {rc : ComponentID}
    (hc : rc.user = p.user → rc.repo = p.repo → rc = ⟨p.user, p.repo, h⟩) :
    (rc.user == p.user && rc.repo == p.repo && !(rc.hash == h)) = false := by
  by_cases hu : rc.user = p.user
  · by_cases hr : rc.repo = p.repo
    · have heq := hc hu hr
      rw [heq]
      simp
    · simp [hr]
  · simp [hu]

/-- **C4, confirmed.**  Idempotence: against an already-converged fleet
(with a failure-free oracle), a full reconciliation pass succeeds issuing
zero `Activate` and zero `Deactivate` RPCs — its whole trace consists of
status queries. -/
theorem claim_C4 (o : Oracle) (s : PassState) (active : List ComponentPath)
    (hE : ∀ k, o.rpcErr k = none)
    (hfa : o.findActive = .ok active)
    (h0 : s.trace = [])
    (hconv : Converged o s active) :
    ∃ s', HandleDirtyState o s = .ok () s' ∧ s'.trace.countP isWrite = 0 := by
  obtain ⟨hper, hglob⟩ := hconv
  obtain ⟨s1, hp1, hst1⟩ := phase1_noop o active hE (List.range o.n) s
    (fun w hw c hc => contains_of_mem (hglob w hw c hc))
  obtain ⟨hf1, hph1, hr1, d1, ht1, hw1⟩ := hst1
  have hexact : ∀ p ∈ active, ∀ h : Hash, lookupHash s.pathHashes p = some h →
      ∃ w ∈ List.range o.n, runsExact (s.fleet w) ⟨p.user, p.repo, h⟩ = true := by
    intro p hp h hh
    obtain ⟨h', hlook, hcount, _⟩ := hper p hp
    have hh' : h = h' := by
      rw [hlook] at hh
      exact (Option.some.inj hh).symm
    subst hh'
    have hpos : 0 < (List.range o.n).countP fun i => runsExact (s.fleet i) ⟨p.user, p.repo, h⟩ := by
      rw [hcount]
      exact Nat.one_pos
    obtain ⟨w, hwmem, hwrun⟩ := List.countP_pos_iff.mp hpos
    exact ⟨w, hwmem, by simpa using hwrun⟩
  obtain ⟨s2, hp2, hst2⟩ := phase2_noop o hE active s1 (by
    intro p hp
    obtain ⟨h, hlook, _, _⟩ := hper p hp
    obtain ⟨w, hwmem, hwrun⟩ := hexact p hp h hlook
    refine ⟨w, hwmem, ?_⟩
    rw [hf1]
    exact runsPath_of_runsExact hwrun)
  obtain ⟨hf2, hph2, hr2, d2, ht2, hw2⟩ := hst2
  obtain ⟨s3, hp3, hst3⟩ := phase3_noop o hE active s2 (by
    intro p hp h hh
    rw [hph2, hph1] at hh
    obtain ⟨w, hwmem, hwrun⟩ := hexact p hp h hh
    refine ⟨w, hwmem, ?_⟩
    rw [hf2, hf1]
    exact hwrun)
  obtain ⟨hf3, hph3, hr3, d3, ht3, hw3⟩ := hst3
  obtain ⟨s4, hp4, hst4⟩ := phase4_noop o hE active s3 (by
    intro p hp h hh w hw rc hrc
    rw [hph3, hph2, hph1] at hh
    rw [hf3, hf2, hf1] at hrc
    obtain ⟨h', hlook, _, hunique⟩ := hper p hp
    have hh' : h = h' := by
      rw [hlook] at hh
      exact (Option.some.inj hh).symm
    subst hh'
    exact cond_false_of_unique (hunique w hw rc hrc))
  obtain ⟨hf4, hph4, hr4, d4, ht4, hw4⟩ := hst4
  refine ⟨s4, ?_, ?_⟩
  · simp only [HandleDirtyState, hfa, hp1, hp2, hp3, hp4]
  · rw [List.countP_eq_zero]
    intro a ha
    rw [ht4, ht3, ht2, ht1, h0, List.nil_append] at ha
    simp only [List.mem_append] at ha
    rcases ha with ((ha | ha) | ha) | ha
    · simp [hw1 a ha]
    · simp [hw2 a ha]
    · simp [hw3 a ha]
    · simp [hw4 a ha]

/-! ### No spurious teardown: paths with no index entry are never deactivated

The invariant `PState`: either path `p` has no version-index entry, or its
entry is `rh` and every running version of `p` on the fleet carries exactly
`rh`.  It holds initially when `p` has no entry, is preserved by every step
of the pass, and rules out every code path that would issue a `Deactivate`
whose ComponentID has path `p`. -/

/-- Trace entry `a` is not a Deactivate of path `p`. -/
def NotPDeact (p : ComponentPath) (a : RPC) : Prop :=
  ∀ (w : Nat) (id : ComponentID) (r : Except Err Unit),
    a = RPC.deactivate w id r → ¬(id.user = p.user ∧ id.repo = p.repo)

theorem notPDeact_status (p : ComponentPath) (w : Nat) (f : Option Err) :
    NotPDeact p (RPC.status w f) := fun _ _ _ h => RPC.noConfusion h

theorem notPDeact_activate (p : ComponentPath) (w : Nat) (id : ComponentID)
    (r : Except Err Hash) : NotPDeact p (RPC.activate w id r) :=
  fun _ _ _ h => RPC.noConfusion h

theorem notPDeact_deactivate {p : ComponentPath} {id : ComponentID}
    (hid : ¬(id.user = p.user ∧ id.repo = p.repo)) (w : Nat) (r : Except Err Unit) :
    NotPDeact p (RPC.deactivate w id r) := by
  intro w' id' r' h
  injection h with h1 h2 h3
  subst h2
  exact hid

/-- The p-relevant invariant: no index entry for `p`, or an entry `rh` such
that every running version of `p` (on workers of the fleet) has hash `rh`. -/
def PState (o : Oracle) (p : ComponentPath) (s : PassState) : Prop :=
  lookupHash s.pathHashes p = none ∨
    ∃ rh, lookupHash s.pathHashes p = some rh ∧
      ∀ i ∈ List.range o.n, ∀ c ∈ s.fleet i,
        c.user = p.user → c.repo = p.repo → c.hash = rh

/-- A step result is p-safe: the invariant holds in its final state, and no
new trace entry is a Deactivate of path `p`. -/
def PSafe {α : Type} (o : Oracle) (p : ComponentPath) (s : PassState)
    (r : StepResult α) : Prop :=
  PState o p r.st ∧ ∀ a ∈ r.st.trace, a ∈ s.trace ∨ NotPDeact p a

theorem pSafe_chain {α : Type} (o : Oracle) (p : ComponentPath) {s s₂ : PassState}
    {r : StepResult α}
    (h1mem : ∀ a ∈ s₂.trace, a ∈ s.trace ∨ NotPDeact p a)
    (h2 : PSafe o p s₂ r) : PSafe o p s r :=
  ⟨h2.1, fun a ha => (h2.2 a ha).elim (fun h => (h1mem a h)) Or.inr⟩

theorem pState_same {o : Oracle} {p : ComponentPath} {s s' : PassState}
    (hf : s'.fleet = s.fleet) (hp : s'.pathHashes = s.pathHashes)
    (h : PState o p s) : PState o p s' := by
  rw [PState, hf, hp]
  exact h

theorem pState_filter {o : Oracle} {p : ComponentPath} {s : PassState}
    (w : Nat) (id : ComponentID) (h : PState o p s) :
    PState o p
      { s with
        ctr := s.ctr + 1,
        fleet := fun i => if i = w then (s.fleet i).filter (fun c => !(c == id)) else s.fleet i,
        trace := s.trace ++ [RPC.deactivate w id (.ok ())] } := by
  rcases h with h | ⟨rh, hlook, hall⟩
  · exact Or.inl h
  · refine Or.inr ⟨rh, hlook, ?_⟩
    intro i hi c hc
    have hc' : c ∈ (if i = w then (s.fleet i).filter (fun c => !(c == id)) else s.fleet i) := hc
    by_cases hiw : i = w
    · rw [if_pos hiw] at hc'
      exact hall i hi c (List.mem_of_mem_filter hc')
    · rw [if_neg hiw] at hc'
      exact hall i hi c hc'

theorem pSafe_doStatus (o : Oracle) (p : ComponentPath) (s : PassState) (w : Nat)
    (h : PState o p s) : PSafe o p s (doStatus o s w) := by
  rcases doStatus_cases o s w with ⟨e, he⟩ | he <;> rw [he] <;>
    refine ⟨pState_same rfl rfl h, fun a ha => ?_⟩ <;>
    rcases List.mem_append.mp ha with h1 | h1
  · exact Or.inl h1
  · exact Or.inr (List.mem_singleton.mp h1 ▸ notPDeact_status p w (some e))
  · exact Or.inl h1
  · exact Or.inr (List.mem_singleton.mp h1 ▸ notPDeact_status p w none)

theorem pSafe_doDeactivate (o : Oracle) (p : ComponentPath) (s : PassState) (w : Nat)
    (id : ComponentID) (hid : ¬(id.user = p.user ∧ id.repo = p.repo))
    (h : PState o p s) : PSafe o p s (doDeactivate o s w id) := by
  rcases doDeactivate_cases o s w id with ⟨e, he⟩ | he <;> rw [he]
  · refine ⟨pState_same rfl rfl h, fun a ha => ?_⟩
    rcases List.mem_append.mp ha with h1 | h1
    · exact Or.inl h1
    · exact Or.inr (List.mem_singleton.mp h1 ▸ notPDeact_deactivate hid w (.error e))
  · refine ⟨pState_filter w id h, fun a ha => ?_⟩
    rcases List.mem_append.mp ha with h1 | h1
    · exact Or.inl h1
    · exact Or.inr (List.mem_singleton.mp h1 ▸ notPDeact_deactivate hid w (.ok ()))

/-! #### Facts extracted from completed scans -/

theorem amScan_preserves (o : Oracle) (q : ComponentPath) :
    ∀ (ws : List Nat) (s : PassState),
      (amScan o q ws s).st.fleet = s.fleet ∧ (amScan o q ws s).st.pathHashes = s.pathHashes := by
  intro ws
  induction ws with
  | nil => intro s; exact ⟨rfl, rfl⟩
  | cons w rest ih =>
    intro s
    rcases doStatus_cases o s w with ⟨e, he⟩ | he
    · constructor <;> simp only [amScan, he, StepResult.st]
    · by_cases hcp : (statusOf s.fleet w).ContainsPath q = true
      · constructor <;> simp only [amScan, he, StepResult.st, if_pos hcp]
      · have := ih (bumpStatus s w)
        constructor <;> simp only [amScan, he, StepResult.st, if_neg hcp] <;>
          [exact this.1; exact this.2]

theorem amScan_false_none (o : Oracle) (q : ComponentPath) :
    ∀ (ws : List Nat) (s s' : PassState), amScan o q ws s = .ok false s' →
      ∀ w ∈ ws, runsPath (s.fleet w) q = false := by
  intro ws
  induction ws with
  | nil => intro s s' _ w hw; exact absurd hw (List.not_mem_nil w)
  | cons w rest ih =>
    intro s s' hscan w' hw'
    rcases doStatus_cases o s w with ⟨e, he⟩ | he <;> simp only [amScan, he] at hscan
    · exact absurd hscan (by intro h; exact StepResult.noConfusion h)
    · by_cases hcp : (statusOf s.fleet w).ContainsPath q = true
      · rw [if_pos hcp] at hscan
        injection hscan with h1 h2
        exact absurd h1.symm Bool.false_ne_true
      · rw [if_neg hcp] at hscan
        rcases List.mem_cons.mp hw' with h | h
        · subst h
          rw [← statusOf_containsPath]
          exact Bool.not_eq_true _ ▸ hcp
        · exact ih _ s' hscan w' h

theorem esScan_preserves (o : Oracle) (cid : ComponentID) (cp : ComponentPath) :
    ∀ (ws acc : List Nat) (s : PassState),
      (esScan o cid cp ws acc s).st.fleet = s.fleet ∧
        (esScan o cid cp ws acc s).st.pathHashes = s.pathHashes := by
  intro ws
  induction ws with
  | nil => intro acc s; exact ⟨rfl, rfl⟩
  | cons w rest ih =>
    intro acc s
    rcases doStatus_cases o s w with ⟨e, he⟩ | he
    · constructor <;> simp only [esScan, he, StepResult.st]
    · by_cases hex : (statusOf s.fleet w).ContainsExactly cid = true
      · constructor <;> simp only [esScan, he, StepResult.st, if_pos hex]
      · by_cases hcp : (statusOf s.fleet w).ContainsPath cp = true
        · have := ih acc (bumpStatus s w)
          constructor <;>
            simp only [esScan, he, StepResult.st, if_neg hex, if_pos hcp] <;>
            [exact this.1; exact this.2]
        · have := ih (acc ++ [w]) (bumpStatus s w)
          constructor <;>
            simp only [esScan, he, StepResult.st, if_neg hex, if_neg hcp] <;>
            [exact this.1; exact this.2]

theorem esScan_some_noexact (o : Oracle) (cid : ComponentID) (cp : ComponentPath) :
    ∀ (ws acc : List Nat) (s s' : PassState) (nr : List Nat),
      esScan o cid cp ws acc s = .ok (some nr) s' →
      ∀ w ∈ ws, runsExact (s.fleet w) cid = false := by
  intro ws
  induction ws with
  | nil => intro acc s s' nr _ w hw; exact absurd hw (List.not_mem_nil w)
  | cons w rest ih =>
    intro acc s s' nr hscan w' hw'
    rcases doStatus_cases o s w with ⟨e, he⟩ | he <;> simp only [esScan, he] at hscan
    · exact absurd hscan (by intro h; exact StepResult.noConfusion h)
    · by_cases hex : (statusOf s.fleet w).ContainsExactly cid = true
      · rw [if_pos hex] at hscan
        injection hscan with h1 h2
        exact absurd h1 (by intro h; exact Option.noConfusion h)
      · rw [if_neg hex] at hscan
        have hwf : runsExact (s.fleet w) cid = false := by
          rw [← statusOf_containsExactly]
          exact Bool.not_eq_true _ ▸ hex
        rcases List.mem_cons.mp hw' with h | h
        · subst h
          exact hwf
        · by_cases hcp : (statusOf s.fleet w).ContainsPath cp = true
          · rw [if_pos hcp] at hscan
            exact ih acc _ s' nr hscan w' h
          · rw [if_neg hcp] at hscan
            exact ih (acc ++ [w]) _ s' nr hscan w' h

theorem esScan_mem_nr (o : Oracle) (cid : ComponentID) (cp : ComponentPath) :
    ∀ (ws acc : List Nat) (s s' : PassState) (nr : List Nat),
      esScan o cid cp ws acc s = .ok (some nr) s' →
      (∀ x ∈ acc, x ∈ nr) ∧
        ∀ w ∈ ws, runsPath (s.fleet w) cp = false → w ∈ nr := by
  intro ws
  induction ws with
  | nil =>
    intro acc s s' nr hscan
    simp only [esScan] at hscan
    injection hscan with h1 h2
    have hacc : acc = nr := Option.some.inj h1
    subst hacc
    exact ⟨fun x hx => hx, fun w hw => absurd hw (List.not_mem_nil w)⟩
  | cons w rest ih =>
    intro acc s s' nr hscan
    rcases doStatus_cases o s w with ⟨e, he⟩ | he <;> simp only [esScan, he] at hscan
    · exact absurd hscan (by intro h; exact StepResult.noConfusion h)
    · by_cases hex : (statusOf s.fleet w).ContainsExactly cid = true
      · rw [if_pos hex] at hscan
        injection hscan with h1 h2
        exact absurd h1 (by intro h; exact Option.noConfusion h)
      · rw [if_neg hex] at hscan
        by_cases hcp : (statusOf s.fleet w).ContainsPath cp = true
        · rw [if_pos hcp] at hscan
          obtain ⟨hacc, hrest⟩ := ih acc _ s' nr hscan
          refine ⟨hacc, fun w' hw' hrp => ?_⟩
          rcases List.mem_cons.mp hw' with h | h
          · subst h
            rw [← statusOf_containsPath] at hrp
            rw [hcp] at hrp
            exact absurd hrp (by simp)
          · exact hrest w' h hrp
        · rw [if_neg hcp] at hscan
          obtain ⟨hacc, hrest⟩ := ih (acc ++ [w]) _ s' nr hscan
          refine ⟨fun x hx => hacc x (List.mem_append.mpr (Or.inl hx)), fun w' hw' hrp => ?_⟩
          rcases List.mem_cons.mp hw' with h | h
          · subst h
            exact hacc w' (List.mem_append.mpr (Or.inr (List.mem_singleton.mpr rfl)))
          · exact hrest w' h hrp

theorem runsPath_false_of_inv {l : List ComponentID} {p : ComponentPath} {rh : Hash}
    (hinv : ∀ c ∈ l, c.user = p.user → c.repo = p.repo → c.hash = rh)
    (hnx : runsExact l ⟨p.user, p.repo, rh⟩ = false) : runsPath l p = false := by
  by_contra hne
  have hrp : runsPath l p = true := by
    cases hb : runsPath l p
    · exact absurd hb hne
    · rfl
  simp only [runsPath, List.any_eq_true] at hrp
  obtain ⟨c, hc, hcb⟩ := hrp
  simp only [Bool.and_eq_true, beq_iff_eq] at hcb
  obtain ⟨hu, hr⟩ := hcb
  have hh : c.hash = rh := hinv c hc hu hr
  have hceq : c = ⟨p.user, p.repo, rh⟩ := by
    cases c
    simp_all
  have : runsExact l ⟨p.user, p.repo, rh⟩ = true := by
    simp only [runsExact, List.any_eq_true]
    exact ⟨c, hc, by rw [hceq]; simp⟩
  rw [this] at hnx
  exact Bool.noConfusion hnx

theorem path_eq_of_ids {cid : ComponentID} {p : ComponentPath}
    (hu : cid.user = p.user) (hr : cid.repo = p.repo) :
    (⟨cid.user, cid.repo⟩ : ComponentPath) = p := by
  cases p
  simp_all

theorem path_ne_of_ids {cid : ComponentID} {p : ComponentPath}
    (h : ¬(cid.user = p.user ∧ cid.repo = p.repo)) :
    (⟨cid.user, cid.repo⟩ : ComponentPath) ≠ p := by
  intro he
  apply h
  cases p
  injection he with h1 h2
  exact ⟨h1, h2⟩

theorem no_p_of_runsPath_false {l : List ComponentID} {q : ComponentPath}
    (hf : runsPath l q = false) : ∀ c ∈ l, ¬(c.user = q.user ∧ c.repo = q.repo) := by
  intro c hc hand
  obtain ⟨hu, hr⟩ := hand
  have : runsPath l q = true := by
    simp only [runsPath, List.any_eq_true]
    exact ⟨c, hc, by simp [hu, hr]⟩
  rw [this] at hf
  exact Bool.noConfusion hf

theorem pSafe_amScan (o : Oracle) (p q : ComponentPath) :
    ∀ (ws : List Nat) (s : PassState), PState o p s → PSafe o p s (amScan o q ws s) := by
  intro ws
  induction ws with
  | nil => intro s h; exact ⟨h, fun a ha => Or.inl ha⟩
  | cons w rest ih =>
    intro s h
    rcases doStatus_cases o s w with ⟨e, he⟩ | he
    · refine ⟨?_, ?_⟩ <;> simp only [amScan, he, StepResult.st]
      · exact pState_same rfl rfl h
      · intro a ha
        rcases List.mem_append.mp ha with h1 | h1
        · exact Or.inl h1
        · exact Or.inr (List.mem_singleton.mp h1 ▸ notPDeact_status p w (some e))
    · by_cases hcp : (statusOf s.fleet w).ContainsPath q = true
      · refine ⟨?_, ?_⟩ <;> simp only [amScan, he, StepResult.st, if_pos hcp]
        · exact pState_same rfl rfl h
        · intro a ha
          rcases List.mem_append.mp ha with h1 | h1
          · exact Or.inl h1
          · exact Or.inr (List.mem_singleton.mp h1 ▸ notPDeact_status p w none)
      · have hbump : PState o p (bumpStatus s w) := pState_same rfl rfl h
        have hrec := ih (bumpStatus s w) hbump
        refine ⟨?_, ?_⟩ <;> simp only [amScan, he, StepResult.st, if_neg hcp]
        · exact hrec.1
        · intro a ha
          rcases hrec.2 a ha with h1 | h1
          · rcases List.mem_append.mp h1 with h2 | h2
            · exact Or.inl h2
            · exact Or.inr (List.mem_singleton.mp h2 ▸ notPDeact_status p w none)
          · exact Or.inr h1

theorem pSafe_deactivateList (o : Oracle) (p : ComponentPath) (w : Nat) :
    ∀ (ids : List ComponentID) (s : PassState),
      (∀ id ∈ ids, ¬(id.user = p.user ∧ id.repo = p.repo)) →
      PState o p s → PSafe o p s (deactivateList o w ids s) := by
  intro ids
  induction ids with
  | nil => intro s _ h; exact ⟨h, fun a ha => Or.inl ha⟩
  | cons id rest ih =>
    intro s hall h
    have hdd := pSafe_doDeactivate o p s w id (hall id (List.mem_cons_self id rest)) h
    cases hres : doDeactivate o s w id with
    | ok a s' =>
      rw [hres] at hdd
      have hrec := ih s' (fun id' h' => hall id' (List.mem_cons_of_mem id h')) hdd.1
      simpa only [deactivateList, hres] using pSafe_chain o p hdd.2 hrec
    | err e s' =>
      rw [hres] at hdd
      simpa only [deactivateList, hres] using hdd
    | crashed s' =>
      rw [hres] at hdd
      simpa only [deactivateList, hres] using hdd

theorem pSafe_deactivateNonactive (o : Oracle) (p : ComponentPath) (w : Nat)
    (active : List ComponentPath) (s : PassState) (hp : p ∈ active)
    (h : PState o p s) : PSafe o p s (deactivateNonactive o w active s) := by
  have hds := pSafe_doStatus o p s w h
  rcases doStatus_cases o s w with ⟨e, he⟩ | he
  · rw [he] at hds
    simpa only [deactivateNonactive, he] using hds
  · rw [he] at hds
    have hall : ∀ id ∈ (statusOf s.fleet w).FindNonactive active,
        ¬(id.user = p.user ∧ id.repo = p.repo) := by
      rw [statusOf_findNonactive]
      intro id hid hpid
      obtain ⟨hidm, hidne⟩ := List.mem_filter.mp hid
      have hact : contains active id = true := by
        apply contains_of_mem
        rw [hpid.1, hpid.2]
        exact hp
      rw [hact] at hidne
      simp at hidne
    have hrec := pSafe_deactivateList o p w ((statusOf s.fleet w).FindNonactive active)
      (bumpStatus s w) hall hds.1
    simpa only [deactivateNonactive, he] using pSafe_chain o p hds.2 hrec

theorem pSafe_activate_ok (o : Oracle) (p : ComponentPath) (cid : ComponentID)
    (sA : PassState) (w : Nat) (rh : Hash)
    (hrh : rh = if cid.hash = headHashSentinel then o.resolve sA.ctr else cid.hash)
    (hstate : PState o p sA)
    (hOldNone : (cid.user = p.user ∧ cid.repo = p.repo) →
      ∀ i ∈ List.range o.n, ∀ c ∈ sA.fleet i, ¬(c.user = p.user ∧ c.repo = p.repo))
    (hcons2 : cid.user = p.user → cid.repo = p.repo → ¬cid.hash = headHashSentinel →
      lookupHash sA.pathHashes p = some cid.hash) :
    PSafe o p sA
      (if cid.hash = headHashSentinel then
        StepResult.ok ()
          { sA with
            ctr := sA.ctr + 1,
            fleet := fun i => if i = w then ⟨cid.user, cid.repo, rh⟩ :: sA.fleet i else sA.fleet i,
            pathHashes := insertHash sA.pathHashes ⟨cid.user, cid.repo⟩ rh,
            trace := sA.trace ++ [RPC.activate w cid (.ok rh)] }
      else
        StepResult.ok ()
          { sA with
            ctr := sA.ctr + 1,
            fleet := fun i => if i = w then ⟨cid.user, cid.repo, rh⟩ :: sA.fleet i else sA.fleet i,
            trace := sA.trace ++ [RPC.activate w cid (.ok rh)] }) := by
  have hmem : ∀ a ∈ sA.trace ++ [RPC.activate w cid (.ok rh)],
      a ∈ sA.trace ∨ NotPDeact p a := by
    intro a ha
    rcases List.mem_append.mp ha with h1 | h1
    · exact Or.inl h1
    · exact Or.inr (List.mem_singleton.mp h1 ▸ notPDeact_activate p w cid (.ok rh))
  have hfleetMem : ∀ (i : Nat) (c : ComponentID),
      c ∈ (if i = w then (⟨cid.user, cid.repo, rh⟩ : ComponentID) :: sA.fleet i else sA.fleet i) →
      c = ⟨cid.user, cid.repo, rh⟩ ∨ c ∈ sA.fleet i := by
    intro i c hc
    by_cases hiw : i = w
    · rw [if_pos hiw] at hc
      exact List.mem_cons.mp hc
    · rw [if_neg hiw] at hc
      exact Or.inr hc
  by_cases hh : cid.hash = headHashSentinel
  · rw [if_pos hh]
    refine ⟨?_, hmem⟩
    by_cases hpid : cid.user = p.user ∧ cid.repo = p.repo
    · have hpeq : (⟨cid.user, cid.repo⟩ : ComponentPath) = p := path_eq_of_ids hpid.1 hpid.2
      refine Or.inr ⟨rh, ?_, ?_⟩
      · show lookupHash (insertHash sA.pathHashes ⟨cid.user, cid.repo⟩ rh) p = some rh
        rw [lookupHash_insert, if_pos hpeq]
      · intro i hi c hc hcu hcr
        rcases hfleetMem i c hc with hceq | hcmem
        · rw [hceq]
        · exact absurd ⟨hcu, hcr⟩ (hOldNone hpid i hi c hcmem)
    · have hpne : (⟨cid.user, cid.repo⟩ : ComponentPath) ≠ p := path_ne_of_ids hpid
      rcases hstate with hnone | ⟨rh₀, hlook₀, hall⟩
      · refine Or.inl ?_
        show lookupHash (insertHash sA.pathHashes ⟨cid.user, cid.repo⟩ rh) p = none
        rw [lookupHash_insert, if_neg hpne]
        exact hnone
      · refine Or.inr ⟨rh₀, ?_, ?_⟩
        · show lookupHash (insertHash sA.pathHashes ⟨cid.user, cid.repo⟩ rh) p = some rh₀
          rw [lookupHash_insert, if_neg hpne]
          exact hlook₀
        · intro i hi c hc hcu hcr
          rcases hfleetMem i c hc with hceq | hcmem
          · exfalso
            apply hpid
            rw [hceq] at hcu hcr
            exact ⟨hcu, hcr⟩
          · exact hall i hi c hcmem hcu hcr
  · rw [if_neg hh]
    refine ⟨?_, hmem⟩
    have hrh' : rh = cid.hash := by rw [hrh, if_neg hh]
    by_cases hpid : cid.user = p.user ∧ cid.repo = p.repo
    · refine Or.inr ⟨cid.hash, hcons2 hpid.1 hpid.2 hh, ?_⟩
      intro i hi c hc hcu hcr
      rcases hfleetMem i c hc with hceq | hcmem
      · rw [hceq]
        exact hrh'
      · exact absurd ⟨hcu, hcr⟩ (hOldNone hpid i hi c hcmem)
    · rcases hstate with hnone | ⟨rh₀, hlook₀, hall⟩
      · exact Or.inl hnone
      · refine Or.inr ⟨rh₀, hlook₀, ?_⟩
        intro i hi c hc hcu hcr
        rcases hfleetMem i c hc with hceq | hcmem
        · exfalso
          apply hpid
          rw [hceq] at hcu hcr
          exact ⟨hcu, hcr⟩
        · exact hall i hi c hcmem hcu hcr

theorem pSafe_esScan (o : Oracle) (p : ComponentPath) (cid : ComponentID)
    (cp : ComponentPath) :
    ∀ (ws acc : List Nat) (s : PassState), PState o p s →
      PSafe o p s (esScan o cid cp ws acc s) := by
  intro ws
  induction ws with
  | nil => intro acc s h; exact ⟨h, fun a ha => Or.inl ha⟩
  | cons w rest ih =>
    intro acc s h
    rcases doStatus_cases o s w with ⟨e, he⟩ | he
    · refine ⟨?_, ?_⟩ <;> simp only [esScan, he, StepResult.st]
      · exact pState_same rfl rfl h
      · intro a ha
        rcases List.mem_append.mp ha with h1 | h1
        · exact Or.inl h1
        · exact Or.inr (List.mem_singleton.mp h1 ▸ notPDeact_status p w (some e))
    · by_cases hex : (statusOf s.fleet w).ContainsExactly cid = true
      · refine ⟨?_, ?_⟩ <;> simp only [esScan, he, StepResult.st, if_pos hex]
        · exact pState_same rfl rfl h
        · intro a ha
          rcases List.mem_append.mp ha with h1 | h1
          · exact Or.inl h1
          · exact Or.inr (List.mem_singleton.mp h1 ▸ notPDeact_status p w none)
      · have hbump : PState o p (bumpStatus s w) := pState_same rfl rfl h
        have hmemB : ∀ a ∈ (bumpStatus s w).trace, a ∈ s.trace ∨ NotPDeact p a := by
          intro a ha
          rcases List.mem_append.mp ha with h1 | h1
          · exact Or.inl h1
          · exact Or.inr (List.mem_singleton.mp h1 ▸ notPDeact_status p w none)
        by_cases hcp : (statusOf s.fleet w).ContainsPath cp = true
        · have hrec := ih acc (bumpStatus s w) hbump
          refine ⟨?_, ?_⟩ <;>
            simp only [esScan, he, StepResult.st, if_neg hex, if_pos hcp]
          · exact hrec.1
          · intro a ha
            rcases hrec.2 a ha with h1 | h1
            · exact hmemB a h1
            · exact Or.inr h1
        · have hrec := ih (acc ++ [w]) (bumpStatus s w) hbump
          refine ⟨?_, ?_⟩ <;>
            simp only [esScan, he, StepResult.st, if_neg hex, if_neg hcp]
          · exact hrec.1
          · intro a ha
            rcases hrec.2 a ha with h1 | h1
            · exact hmemB a h1
            · exact Or.inr h1

theorem pSafe_activateMissing (o : Oracle) (p : ComponentPath) (cid : ComponentID)
    (s : PassState) (h : PState o p s)
    (hcons : cid.user = p.user → cid.repo = p.repo →
      (cid.hash = headHashSentinel ∧ lookupHash s.pathHashes p = none) ∨
        lookupHash s.pathHashes p = some cid.hash) :
    PSafe o p s (activateMissing o cid s) := by
  have hscan := pSafe_amScan o p ⟨cid.user, cid.repo⟩ (List.range o.n) s h
  cases hres : amScan o ⟨cid.user, cid.repo⟩ (List.range o.n) s with
  | err e s' =>
    rw [hres] at hscan
    simpa only [activateMissing, hres] using hscan
  | crashed s' =>
    rw [hres] at hscan
    simpa only [activateMissing, hres] using hscan
  | ok found s' =>
    rw [hres] at hscan
    obtain ⟨hprf, hprph⟩ := amScan_preserves o ⟨cid.user, cid.repo⟩ (List.range o.n) s
    rw [hres] at hprf hprph
    have hf : s'.fleet = s.fleet := hprf
    have hph : s'.pathHashes = s.pathHashes := hprph
    cases found with
    | true =>
      have hsafe : PSafe o p s (StepResult.ok (α := Unit) () s') := ⟨hscan.1, hscan.2⟩
      simpa only [activateMissing, hres] using hsafe
    | false =>
      have hnone := amScan_false_none o ⟨cid.user, cid.repo⟩ (List.range o.n) s s' hres
      rcases randIntn_cases o s' o.n with ⟨h0, hr⟩ | ⟨h0, hr⟩
      · have hsafe : PSafe o p s (StepResult.crashed (α := Unit) s') := ⟨hscan.1, hscan.2⟩
        simpa only [activateMissing, hres, hr] using hsafe
      · rcases doActivate_cases o { s' with rctr := s'.rctr + 1 } (o.rand s'.rctr % o.n) cid
          with ⟨e, hact⟩ | ⟨rh, hrh, hact⟩
        · refine ⟨?_, ?_⟩ <;>
            simp only [activateMissing, hres, hr, hact, StepResult.st]
          · exact pState_same rfl rfl hscan.1
          · intro a ha
            rcases List.mem_append.mp ha with h1 | h1
            · exact hscan.2 a h1
            · exact Or.inr (List.mem_singleton.mp h1 ▸
                notPDeact_activate p (o.rand s'.rctr % o.n) cid (.error e))
        · have hOldNone : (cid.user = p.user ∧ cid.repo = p.repo) →
              ∀ i ∈ List.range o.n,
                ∀ c ∈ ({ s' with rctr := s'.rctr + 1 } : PassState).fleet i,
                  ¬(c.user = p.user ∧ c.repo = p.repo) := by
            intro hpid i hi c hc hcand
            have hc2 : c ∈ s.fleet i := by
              have hcc : c ∈ s'.fleet i := hc
              rw [hf] at hcc
              exact hcc
            exact no_p_of_runsPath_false (hnone i hi) c hc2
              ⟨hcand.1.trans hpid.1.symm, hcand.2.trans hpid.2.symm⟩
          have hcons2 : cid.user = p.user → cid.repo = p.repo →
              ¬cid.hash = headHashSentinel →
              lookupHash ({ s' with rctr := s'.rctr + 1 } : PassState).pathHashes p =
                some cid.hash := by
            intro hu hr2 hnh
            have : lookupHash s.pathHashes p = some cid.hash := by
              rcases hcons hu hr2 with ⟨hhd, _⟩ | hsome
              · exact absurd hhd hnh
              · exact hsome
            show lookupHash s'.pathHashes p = some cid.hash
            rw [hph]
            exact this
          have hsafeUpd := pSafe_activate_ok o p cid { s' with rctr := s'.rctr + 1 }
            (o.rand s'.rctr % o.n) rh hrh (pState_same rfl rfl hscan.1) hOldNone hcons2
          have hmemA : ∀ a ∈ ({ s' with rctr := s'.rctr + 1 } : PassState).trace,
              a ∈ s.trace ∨ NotPDeact p a := hscan.2
          have hchain := pSafe_chain o p hmemA hsafeUpd
          simpa only [activateMissing, hres, hr, hact] using hchain

theorem pSafe_eswir (o : Oracle) (p : ComponentPath) (cid : ComponentID) (s : PassState)
    (h : PState o p s)
    (hcons : cid.user = p.user → cid.repo = p.repo →
      lookupHash s.pathHashes p = some cid.hash) :
    PSafe o p s (ensureSomeWorkerIsRunning o cid s) := by
  have hscan := pSafe_esScan o p cid ⟨cid.user, cid.repo⟩ (List.range o.n) [] s h
  cases hres : esScan o cid ⟨cid.user, cid.repo⟩ (List.range o.n) [] s with
  | err e s' =>
    rw [hres] at hscan
    simpa only [ensureSomeWorkerIsRunning, hres] using hscan
  | crashed s' =>
    rw [hres] at hscan
    simpa only [ensureSomeWorkerIsRunning, hres] using hscan
  | ok found s' =>
    rw [hres] at hscan
    obtain ⟨hprf, hprph⟩ := esScan_preserves o cid ⟨cid.user, cid.repo⟩ (List.range o.n) [] s
    rw [hres] at hprf hprph
    have hf : s'.fleet = s.fleet := hprf
    have hph : s'.pathHashes = s.pathHashes := hprph
    cases found with
    | none =>
      have hsafe : PSafe o p s (StepResult.ok (α := Unit) () s') := ⟨hscan.1, hscan.2⟩
      simpa only [ensureSomeWorkerIsRunning, hres] using hsafe
    | some nr =>
      have hnoex :=
        esScan_some_noexact o cid ⟨cid.user, cid.repo⟩ (List.range o.n) [] s s' nr hres
      have hnoP : (cid.user = p.user ∧ cid.repo = p.repo) →
          ∀ w ∈ List.range o.n, runsPath (s.fleet w) ⟨cid.user, cid.repo⟩ = false := by
        intro hpid w hw
        have hlook := hcons hpid.1 hpid.2
        rcases h with hnone | ⟨rh₀, hlook₀, hall⟩
        · rw [hlook] at hnone
          exact Option.noConfusion hnone
        · have hrh₀ : rh₀ = cid.hash := by
            rw [hlook₀] at hlook
            exact Option.some.inj hlook
          subst hrh₀
          refine @runsPath_false_of_inv (s.fleet w) ⟨cid.user, cid.repo⟩ cid.hash ?_ ?_
          · intro c hc hcu hcr
            exact hall w hw c hc (hcu.trans hpid.1) (hcr.trans hpid.2)
          · exact hnoex w hw
      have hmemA : ∀ a ∈ ({ s' with rctr := s'.rctr + 1 } : PassState).trace,
          a ∈ s.trace ∨ NotPDeact p a := hscan.2
      have hstA : PState o p ({ s' with rctr := s'.rctr + 1 } : PassState) :=
        pState_same rfl rfl hscan.1
      by_cases hlen : nr.length > 0
      · rcases randIntn_cases o s' nr.length with ⟨h0, hr⟩ | ⟨h0, hr⟩
        · exact absurd h0 (by omega)
        · rcases doActivate_cases o { s' with rctr := s'.rctr + 1 }
            (nr.getD (o.rand s'.rctr % nr.length) 0) cid with ⟨e, hact⟩ | ⟨rh, hrh, hact⟩
          · refine ⟨?_, ?_⟩ <;>
              simp only [ensureSomeWorkerIsRunning, hres, esPick, if_pos hlen, hr, hact,
                StepResult.st]
            · exact pState_same rfl rfl hscan.1
            · intro a ha
              rcases List.mem_append.mp ha with h1 | h1
              · exact hscan.2 a h1
              · exact Or.inr (List.mem_singleton.mp h1 ▸
                  notPDeact_activate p _ cid (.error e))
          · have hOldNone : (cid.user = p.user ∧ cid.repo = p.repo) →
                ∀ i ∈ List.range o.n,
                  ∀ c ∈ ({ s' with rctr := s'.rctr + 1 } : PassState).fleet i,
                    ¬(c.user = p.user ∧ c.repo = p.repo) := by
              intro hpid i hi c hc hcand
              have hc2 : c ∈ s.fleet i := by
                have hcc : c ∈ s'.fleet i := hc
                rw [hf] at hcc
                exact hcc
              exact no_p_of_runsPath_false (hnoP hpid i hi) c hc2
                ⟨hcand.1.trans hpid.1.symm, hcand.2.trans hpid.2.symm⟩
            have hcons2 : cid.user = p.user → cid.repo = p.repo →
                ¬cid.hash = headHashSentinel →
                lookupHash ({ s' with rctr := s'.rctr + 1 } : PassState).pathHashes p =
                  some cid.hash := by
              intro hu hr2 _
              show lookupHash s'.pathHashes p = some cid.hash
              rw [hph]
              exact hcons hu hr2
            have hsafeUpd := pSafe_activate_ok o p cid { s' with rctr := s'.rctr + 1 }
              (nr.getD (o.rand s'.rctr % nr.length) 0) rh hrh hstA hOldNone hcons2
            have hchain := pSafe_chain o p hmemA hsafeUpd
            simpa only [ensureSomeWorkerIsRunning, hres, esPick, if_pos hlen, hr, hact]
              using hchain
      · rcases randIntn_cases o s' o.n with ⟨h0, hr⟩ | ⟨h0, hr⟩
        · have hsafe : PSafe o p s (StepResult.crashed (α := Unit) s') := ⟨hscan.1, hscan.2⟩
          simpa only [ensureSomeWorkerIsRunning, hres, esPick, if_neg hlen, hr] using hsafe
        · by_cases hpid : cid.user = p.user ∧ cid.repo = p.repo
          · exfalso
            obtain ⟨_, hmemnr⟩ :=
              esScan_mem_nr o cid ⟨cid.user, cid.repo⟩ (List.range o.n) [] s s' nr hres
            have h0mem : 0 ∈ List.range o.n := List.mem_range.mpr (Nat.pos_of_ne_zero h0)
            have hmem0 : (0 : Nat) ∈ nr := hmemnr 0 h0mem (hnoP hpid 0 h0mem)
            have hpos : 0 < nr.length := List.length_pos.mpr (List.ne_nil_of_mem hmem0)
            omega
          · have hdd := pSafe_doDeactivate o p { s' with rctr := s'.rctr + 1 }
              (o.rand s'.rctr % o.n) cid hpid hstA
            cases hdc : doDeactivate o { s' with rctr := s'.rctr + 1 }
                (o.rand s'.rctr % o.n) cid with
            | err e sB =>
              rw [hdc] at hdd
              have hchain := pSafe_chain o p hmemA hdd
              simpa only [ensureSomeWorkerIsRunning, hres, esPick, if_neg hlen, hr, hdc]
                using hchain
            | crashed sB =>
              rw [hdc] at hdd
              have hchain := pSafe_chain o p hmemA hdd
              simpa only [ensureSomeWorkerIsRunning, hres, esPick, if_neg hlen, hr, hdc]
                using hchain
            | ok a sB =>
              rw [hdc] at hdd
              have hmemB : ∀ b ∈ sB.trace, b ∈ s.trace ∨ NotPDeact p b := by
                intro b hb
                rcases hdd.2 b hb with h1 | h1
                · exact hmemA b h1
                · exact Or.inr h1
              rcases doActivate_cases o sB (o.rand s'.rctr % o.n) cid
                with ⟨e2, hact⟩ | ⟨rh, hrh, hact⟩
              · refine ⟨?_, ?_⟩ <;>
                  simp only [ensureSomeWorkerIsRunning, hres, esPick, if_neg hlen, hr, hdc,
                    hact, StepResult.st]
                · exact pState_same rfl rfl hdd.1
                · intro b hb
                  rcases List.mem_append.mp hb with h1 | h1
                  · exact hmemB b h1
                  · exact Or.inr (List.mem_singleton.mp h1 ▸
                      notPDeact_activate p _ cid (.error e2))
              · have hsafeUpd := pSafe_activate_ok o p cid sB (o.rand s'.rctr % o.n) rh hrh
                  hdd.1 (fun hpid' => absurd hpid' hpid)
                  (fun hu hr2 _ => absurd ⟨hu, hr2⟩ hpid)
                have hchain := pSafe_chain o p hmemB hsafeUpd
                simpa only [ensureSomeWorkerIsRunning, hres, esPick, if_neg hlen, hr, hdc,
                  hact] using hchain

theorem pSafe_dihdLoop (o : Oracle) (p : ComponentPath) (w : Nat) (cid : ComponentID) :
    ∀ (running : List ComponentID) (s : PassState),
      PState o p s →
      (∀ rc ∈ running,
        (rc.user == cid.user && rc.repo == cid.repo && !(rc.hash == cid.hash)) = true →
        ¬(rc.user = p.user ∧ rc.repo = p.repo)) →
      PSafe o p s (dihdLoop o w cid running s) := by
  intro running
  induction running with
  | nil => intro s h _; exact ⟨h, fun a ha => Or.inl ha⟩
  | cons rc rest ih =>
    intro s h hall
    by_cases hc : (rc.user == cid.user && rc.repo == cid.repo && !(rc.hash == cid.hash)) = true
    · have hdd := pSafe_doDeactivate o p s w rc (hall rc (List.mem_cons_self rc rest) hc) h
      cases hdc : doDeactivate o s w rc with
      | ok a s1 =>
        rw [hdc] at hdd
        have hrec := ih s1 hdd.1 (fun rc' h' hcc => hall rc' (List.mem_cons_of_mem rc h') hcc)
        have hchain := pSafe_chain o p hdd.2 hrec
        simp only [dihdLoop]
        rw [if_pos hc]
        simpa only [hdc] using hchain
      | err e s1 =>
        rw [hdc] at hdd
        simp only [dihdLoop]
        rw [if_pos hc]
        simpa only [hdc] using hdd
      | crashed s1 =>
        rw [hdc] at hdd
        simp only [dihdLoop]
        rw [if_pos hc]
        simpa only [hdc] using hdd
    · have hrec := ih s h (fun rc' h' hcc => hall rc' (List.mem_cons_of_mem rc h') hcc)
      simp only [dihdLoop]
      rw [if_neg hc]
      exact hrec

theorem pSafe_dihd (o : Oracle) (p : ComponentPath) (w : Nat) (cid : ComponentID)
    (s : PassState) (hw : w ∈ List.range o.n) (h : PState o p s)
    (hcons : cid.user = p.user → cid.repo = p.repo →
      lookupHash s.pathHashes p = some cid.hash) :
    PSafe o p s (deactivateIfHashDiffers o w cid s) := by
  have hds := pSafe_doStatus o p s w h
  rcases doStatus_cases o s w with ⟨e, he⟩ | he
  · rw [he] at hds
    simpa only [deactivateIfHashDiffers, he] using hds
  · rw [he] at hds
    have hall : ∀ rc ∈ (statusOf s.fleet w).activeComponents.map (·.id),
        (rc.user == cid.user && rc.repo == cid.repo && !(rc.hash == cid.hash)) = true →
        ¬(rc.user = p.user ∧ rc.repo = p.repo) := by
      rw [statusOf_ids]
      intro rc hrc hcc hrcp
      simp only [Bool.and_eq_true, beq_iff_eq] at hcc
      obtain ⟨⟨hu, hr⟩, hhne⟩ := hcc
      have hlook := hcons (hu.symm.trans hrcp.1) (hr.symm.trans hrcp.2)
      rcases h with hnone | ⟨rh₀, hlook₀, hallinv⟩
      · rw [hlook] at hnone
        exact Option.noConfusion hnone
      · have hrh₀ : rh₀ = cid.hash := by
          rw [hlook₀] at hlook
          exact Option.some.inj hlook
        have hch : rc.hash = cid.hash := hrh₀ ▸ hallinv w hw rc hrc hrcp.1 hrcp.2
        rw [hch] at hhne
        simp at hhne
    have hrec := pSafe_dihdLoop o p w cid ((statusOf s.fleet w).activeComponents.map (·.id))
      (bumpStatus s w) hds.1 hall
    simpa only [deactivateIfHashDiffers, he] using pSafe_chain o p hds.2 hrec

theorem dihdLoop_preserves_ph (o : Oracle) (w : Nat) (cid : ComponentID) :
    ∀ (running : List ComponentID) (s : PassState),
      (dihdLoop o w cid running s).st.pathHashes = s.pathHashes := by
  intro running
  induction running with
  | nil => intro s; rfl
  | cons rc rest ih =>
    intro s
    by_cases hc : (rc.user == cid.user && rc.repo == cid.repo && !(rc.hash == cid.hash)) = true
    · simp only [dihdLoop]
      rw [if_pos hc]
      rcases doDeactivate_cases o s w rc with ⟨e, hdc⟩ | hdc <;> simp only [hdc, StepResult.st]
      exact ih _
    · simp only [dihdLoop]
      rw [if_neg hc]
      exact ih s

theorem dihd_preserves_ph (o : Oracle) (w : Nat) (cid : ComponentID) (s : PassState) :
    (deactivateIfHashDiffers o w cid s).st.pathHashes = s.pathHashes := by
  rcases doStatus_cases o s w with ⟨e, he⟩ | he <;>
    simp only [deactivateIfHashDiffers, he, StepResult.st]
  exact dihdLoop_preserves_ph o w cid _ _

theorem pSafe_phase1 (o : Oracle) (p : ComponentPath) (active : List ComponentPath)
    (hp : p ∈ active) :
    ∀ (ws : List Nat) (s : PassState), PState o p s →
      PSafe o p s (phase1 o active ws s) := by
  intro ws
  induction ws with
  | nil => intro s h; exact ⟨h, fun a ha => Or.inl ha⟩
  | cons w rest ih =>
    intro s h
    have hdna := pSafe_deactivateNonactive o p w active s hp h
    cases hres : deactivateNonactive o w active s with
    | ok a s1 =>
      rw [hres] at hdna
      have hchain := pSafe_chain o p hdna.2 (ih s1 hdna.1)
      simpa only [phase1, hres] using hchain
    | err e s1 =>
      rw [hres] at hdna
      simpa only [phase1, hres] using hdna
    | crashed s1 =>
      rw [hres] at hdna
      simpa only [phase1, hres] using hdna

theorem pSafe_phase2 (o : Oracle) (p : ComponentPath) :
    ∀ (active : List ComponentPath) (s : PassState), PState o p s →
      PSafe o p s (phase2 o active s) := by
  intro active
  induction active with
  | nil => intro s h; exact ⟨h, fun a ha => Or.inl ha⟩
  | cons q rest ih =>
    intro s h
    have hcons : (⟨q.user, q.repo, (lookupHash s.pathHashes q).getD headHashSentinel⟩ :
          ComponentID).user = p.user →
        (⟨q.user, q.repo, (lookupHash s.pathHashes q).getD headHashSentinel⟩ :
          ComponentID).repo = p.repo →
        ((⟨q.user, q.repo, (lookupHash s.pathHashes q).getD headHashSentinel⟩ :
            ComponentID).hash = headHashSentinel ∧ lookupHash s.pathHashes p = none) ∨
          lookupHash s.pathHashes p = some
            (⟨q.user, q.repo, (lookupHash s.pathHashes q).getD headHashSentinel⟩ :
              ComponentID).hash := by
      intro hu hr
      have hqp : q = p := by
        cases q
        cases p
        simp_all
      subst hqp
      cases hl : lookupHash s.pathHashes q with
      | none => exact Or.inl ⟨rfl, rfl⟩
      | some hsh => exact Or.inr rfl
    have ham := pSafe_activateMissing o p
      ⟨q.user, q.repo, (lookupHash s.pathHashes q).getD headHashSentinel⟩ s h hcons
    cases hres : activateMissing o
        ⟨q.user, q.repo, (lookupHash s.pathHashes q).getD headHashSentinel⟩ s with
    | ok a s1 =>
      rw [hres] at ham
      have hchain := pSafe_chain o p ham.2 (ih s1 ham.1)
      simpa only [phase2, hres] using hchain
    | err e s1 =>
      rw [hres] at ham
      simpa only [phase2, hres] using ham
    | crashed s1 =>
      rw [hres] at ham
      simpa only [phase2, hres] using ham

theorem pSafe_phase3 (o : Oracle) (p : ComponentPath) :
    ∀ (active : List ComponentPath) (s : PassState), PState o p s →
      PSafe o p s (phase3 o active s) := by
  intro active
  induction active with
  | nil => intro s h; exact ⟨h, fun a ha => Or.inl ha⟩
  | cons q rest ih =>
    intro s h
    cases hl : lookupHash s.pathHashes q with
    | none =>
      simpa only [phase3, hl] using ih s h
    | some hsh =>
      have hcons : (⟨q.user, q.repo, hsh⟩ : ComponentID).user = p.user →
          (⟨q.user, q.repo, hsh⟩ : ComponentID).repo = p.repo →
          lookupHash s.pathHashes p = some (⟨q.user, q.repo, hsh⟩ : ComponentID).hash := by
        intro hu hr
        have hqp : q = p := by
          cases q
          cases p
          simp_all
        subst hqp
        exact hl
      have hes := pSafe_eswir o p ⟨q.user, q.repo, hsh⟩ s h hcons
      cases hres : ensureSomeWorkerIsRunning o ⟨q.user, q.repo, hsh⟩ s with
      | ok a s1 =>
        rw [hres] at hes
        have hchain := pSafe_chain o p hes.2 (ih s1 hes.1)
        simpa only [phase3, hl, hres] using hchain
      | err e s1 =>
        rw [hres] at hes
        simpa only [phase3, hl, hres] using hes
      | crashed s1 =>
        rw [hres] at hes
        simpa only [phase3, hl, hres] using hes

theorem pSafe_phase4each (o : Oracle) (p : ComponentPath) (cid : ComponentID) :
    ∀ (ws : List Nat) (s : PassState),
      (∀ w ∈ ws, w ∈ List.range o.n) → PState o p s →
      (cid.user = p.user → cid.repo = p.repo →
        lookupHash s.pathHashes p = some cid.hash) →
      PSafe o p s (phase4each o cid ws s) := by
  intro ws
  induction ws with
  | nil => intro s _ h _; exact ⟨h, fun a ha => Or.inl ha⟩
  | cons w rest ih =>
    intro s hws h hcons
    have hd := pSafe_dihd o p w cid s (hws w (List.mem_cons_self w rest)) h hcons
    cases hres : deactivateIfHashDiffers o w cid s with
    | ok a s1 =>
      rw [hres] at hd
      have hph1 : s1.pathHashes = s.pathHashes := by
        have hpp := dihd_preserves_ph o w cid s
        rw [hres] at hpp
        exact hpp
      have hrec := ih s1 (fun w' hw' => hws w' (List.mem_cons_of_mem w hw')) hd.1
        (fun hu hr => by rw [hph1]; exact hcons hu hr)
      have hchain := pSafe_chain o p hd.2 hrec
      simpa only [phase4each, hres] using hchain
    | err e s1 =>
      rw [hres] at hd
      simpa only [phase4each, hres] using hd
    | crashed s1 =>
      rw [hres] at hd
      simpa only [phase4each, hres] using hd

theorem pSafe_phase4 (o : Oracle) (p : ComponentPath) :
    ∀ (active : List ComponentPath) (s : PassState), PState o p s →
      PSafe o p s (phase4 o active s) := by
  intro active
  induction active with
  | nil => intro s h; exact ⟨h, fun a ha => Or.inl ha⟩
  | cons q rest ih =>
    intro s h
    cases hl : lookupHash s.pathHashes q with
    | none =>
      simpa only [phase4, hl] using ih s h
    | some hsh =>
      have hcons : (⟨q.user, q.repo, hsh⟩ : ComponentID).user = p.user →
          (⟨q.user, q.repo, hsh⟩ : ComponentID).repo = p.repo →
          lookupHash s.pathHashes p = some (⟨q.user, q.repo, hsh⟩ : ComponentID).hash := by
        intro hu hr
        have hqp : q = p := by
          cases q
          cases p
          simp_all
        subst hqp
        exact hl
      have h4e := pSafe_phase4each o p ⟨q.user, q.repo, hsh⟩ (List.range o.n) s
        (fun w hw => hw) h hcons
      cases hres : phase4each o ⟨q.user, q.repo, hsh⟩ (List.range o.n) s with
      | ok a s1 =>
        rw [hres] at h4e
        have hchain := pSafe_chain o p h4e.2 (ih s1 h4e.1)
        simpa only [phase4, hl, hres] using hchain
      | err e s1 =>
        rw [hres] at h4e
        simpa only [phase4, hl, hres] using h4e
      | crashed s1 =>
        rw [hres] at h4e
        simpa only [phase4, hl, hres] using h4e

theorem pSafe_handleDirty (o : Oracle) (p : ComponentPath) (s : PassState)
    (active : List ComponentPath) (hfa : o.findActive = .ok active) (hp : p ∈ active)
    (h : PState o p s) : PSafe o p s (HandleDirtyState o s) := by
  have h1 := pSafe_phase1 o p active hp (List.range o.n) s h
  cases hp1 : phase1 o active (List.range o.n) s with
  | err e s1 =>
    rw [hp1] at h1
    simpa only [HandleDirtyState, hfa, hp1] using h1
  | crashed s1 =>
    rw [hp1] at h1
    simpa only [HandleDirtyState, hfa, hp1] using h1
  | ok a s1 =>
    rw [hp1] at h1
    have h2 := pSafe_phase2 o p active s1 h1.1
    cases hp2 : phase2 o active s1 with
    | err e s2 =>
      rw [hp2] at h2
      simpa only [HandleDirtyState, hfa, hp1, hp2] using pSafe_chain o p h1.2 h2
    | crashed s2 =>
      rw [hp2] at h2
      simpa only [HandleDirtyState, hfa, hp1, hp2] using pSafe_chain o p h1.2 h2
    | ok a2 s2 =>
      rw [hp2] at h2
      have hm2 : ∀ b ∈ s2.trace, b ∈ s.trace ∨ NotPDeact p b :=
        fun b hb => (h2.2 b hb).elim (h1.2 b) Or.inr
      have h3 := pSafe_phase3 o p active s2 h2.1
      cases hp3 : phase3 o active s2 with
      | err e s3 =>
        rw [hp3] at h3
        simpa only [HandleDirtyState, hfa, hp1, hp2, hp3] using pSafe_chain o p hm2 h3
      | crashed s3 =>
        rw [hp3] at h3
        simpa only [HandleDirtyState, hfa, hp1, hp2, hp3] using pSafe_chain o p hm2 h3
      | ok a3 s3 =>
        rw [hp3] at h3
        have hm3 : ∀ b ∈ s3.trace, b ∈ s.trace ∨ NotPDeact p b :=
          fun b hb => (h3.2 b hb).elim (hm2 b) Or.inr
        have h4 := pSafe_phase4 o p active s3 h3.1
        simpa only [HandleDirtyState, hfa, hp1, hp2, hp3] using pSafe_chain o p hm3 h4

/-- **C5, confirmed.**  No spurious teardown: for every desired path with no
Version Index entry at the start of the pass, the pass never issues a
`Deactivate` whose ComponentID has that path — under any RPC-failure
pattern, any random choices, and any HEAD resolutions. -/
theorem claim_C5 (o : Oracle) (s : PassState) (p : ComponentPath)
    (active : List ComponentPath)
    (hfa : o.findActive = .ok active) (hp : p ∈ active)
    (hstart : lookupHash s.pathHashes p = none) (h0 : s.trace = []) :
    ∀ (w : Nat) (id : ComponentID) (r : Except Err Unit),
      RPC.deactivate w id r ∈ (HandleDirtyState o s).st.trace →
      ¬(id.user = p.user ∧ id.repo = p.repo) := by
  have hfinal := pSafe_handleDirty o p s active hfa hp (Or.inl hstart)
  intro w id r hmem
  rcases hfinal.2 _ hmem with h1 | h2
  · rw [h0] at h1
    exact absurd h1 (List.not_mem_nil _)
  · exact h2 _ _ _ rfl

/-- World for the C5 witness: one worker running a non-desired component;
the desired path has no index entry. -/
def oC5 : Oracle := ⟨1, .ok [pAS], fun _ => none, fun _ => "rh1", fun _ => 0⟩

/-- Initial state for the C5 witness. -/
def sC5 : PassState :=
  ⟨fun i => if i = 0 then [⟨"carol", "z", "h0"⟩] else [], [], 0, 0, []⟩

/-- Witness for `claim_C5`: the pass does issue a Deactivate (Phase 1 tears
down the non-desired `carol/z`), and that Deactivate's path is not the
index-less desired path. -/
theorem claim_C5_witness :
    ¬((⟨"carol", "z", "h0"⟩ : ComponentID).user = pAS.user ∧
      (⟨"carol", "z", "h0"⟩ : ComponentID).repo = pAS.repo) :=
  claim_C5 oC5 sC5 pAS [pAS] rfl (List.mem_singleton.mpr rfl) rfl rfl 0
    ⟨"carol", "z", "h0"⟩ (.ok ()) (by decide)

/-- World for the C4 witness: two workers, no failures. -/
def oC4 : Oracle := ⟨2, .ok [pAS], fun _ => none, fun _ => "rX", fun _ => 0⟩

/-- Initial state for the C4 witness: converged — worker 0 runs exactly the
indexed hash of the single desired path, worker 1 is idle. -/
def sC4 : PassState :=
  ⟨fun i => if i = 0 then [⟨"alice", "svc", "h1"⟩] else [], [(pAS, "h1")], 0, 0, []⟩

/-- Witness for `claim_C4`: the concrete converged two-worker world yields a
successful pass whose trace contains zero Activate/Deactivate RPCs. -/
theorem claim_C4_witness :
    ∃ s', HandleDirtyState oC4 sC4 = .ok () s' ∧ s'.trace.countP isWrite = 0 :=
  claim_C4 oC4 sC4 [pAS] (fun _ => rfl) rfl rfl
    ⟨fun p hp => by
        have hps : p = pAS := List.mem_singleton.mp hp
        subst hps
        exact ⟨"h1", by decide, by decide, by decide⟩,
      by decide⟩

/-- **C7, confirmed.**  If a pass returns an error `e`, then either the
desired-state read itself failed with `e` and no worker RPC was issued at
all, or the trace consists of successful RPCs followed by exactly one
failing RPC — which failed with `e` — and nothing after it: the pass
short-circuits at the first failing desired-state read, Status, Activate,
or Deactivate, returning that first error to its caller with no further
worker RPCs in the pass. -/
theorem claim_C7 (o : Oracle) (s : PassState) (e : Err) (s' : PassState)
    (h0 : s.trace = [])
    (herr : HandleDirtyState o s = .err e s') :
    (s'.trace = [] ∧ o.findActive = .error e) ∨
    (∃ d last, s'.trace = d ++ [last] ∧ okTrace d ∧ rpcFailure last = some e) := by
  cases hfa : o.findActive with
  | error e' =>
    left
    have herr2 : StepResult.err (α := Unit) e' s = .err e s' := by
      rw [← herr]
      simp only [HandleDirtyState, hfa]
    injection herr2 with h1 h2
    refine ⟨h2 ▸ h0, ?_⟩
    rw [h1]
  | ok active =>
    right
    have hchain := cleanRun_phaseChain o active s
    rw [show HandleDirtyState o s = (match o.findActive with
      | .error e => StepResult.err (α := Unit) e s
      | .ok active => match phase1 o active (List.range o.n) s with
        | .err e s1 => .err e s1
        | .crashed s1 => .crashed s1
        | .ok _ s1 =>
          match phase2 o active s1 with
          | .err e s2 => .err e s2
          | .crashed s2 => .crashed s2
          | .ok _ s2 =>
            match phase3 o active s2 with
            | .err e s3 => .err e s3
            | .crashed s3 => .crashed s3
            | .ok _ s3 => phase4 o active s3) from rfl, hfa] at herr
    obtain ⟨d, last, hd, hok, hl⟩ := hchain.2.2 e s' herr
    refine ⟨d, last, ?_, hok, hl⟩
    rw [hd, h0, List.nil_append]

/-- World for the C7 witness: every RPC fails. -/
def oC7 : Oracle := ⟨1, .ok [pAS], fun _ => some "boom", fun _ => "rX", fun _ => 0⟩

/-- Witness for `claim_C7`: in a world whose very first RPC fails, the pass
errors with that failure and the trace is exactly the one failing RPC. -/
theorem claim_C7_witness :
    (((⟨sC6.fleet, sC6.pathHashes, 1, 0,
        [RPC.status 0 (some "boom")]⟩ : PassState).trace = [] ∧ oC7.findActive = .error "boom") ∨
      (∃ d last,
        (⟨sC6.fleet, sC6.pathHashes, 1, 0,
          [RPC.status 0 (some "boom")]⟩ : PassState).trace = d ++ [last] ∧ okTrace d ∧
          rpcFailure last = some "boom")) :=
  claim_C7 oC7 sC6 "boom" ⟨sC6.fleet, sC6.pathHashes, 1, 0, [RPC.status 0 (some "boom")]⟩
    rfl rfl

theorem headWStep_cases (q : ComponentPath) (a : RPC) :
    (∀ c, headWStep q c a = c) ∨ ∃ rh, ∀ c, headWStep q c a = some rh := by
  cases a with
  | status w f => exact Or.inl fun c => rfl
  | deactivate w id r => exact Or.inl fun c => rfl
  | activate w id r =>
    cases r with
    | error e => exact Or.inl fun c => rfl
    | ok rh =>
      by_cases hcond : id.user = q.user ∧ id.repo = q.repo ∧ id.hash = headHashSentinel
      · exact Or.inr ⟨rh, fun c => by simp [headWStep, hcond]⟩
      · exact Or.inl fun c => by simp [headWStep, hcond]

theorem headW_base (q : ComponentPath) :
    ∀ (t : List RPC) (b : Option Hash),
      headW t q b =
        match headW t q none with
        | some r => some r
        | none => b := by
  intro t
  induction t with
  | nil => intro b; rfl
  | cons a t ih =>
    intro b
    have hcons : ∀ c, headW (a :: t) q c = headW t q (headWStep q c a) := fun _ => rfl
    rcases headWStep_cases q a with hid | ⟨rh, hset⟩
    · rw [hcons b, hcons none, hid b, hid none]
      exact ih b
    · rw [hcons b, hcons none, hset b, hset none, ih (some rh)]
      cases headW t q none with
      | some r => rfl
      | none => rfl

/-- The central version-index characterization: after a pass starting with
an empty trace, the index entry of any path `q` is the replay of the pass's
trace over the initial entry — it changes exactly through successful
`Activate` RPCs requested with the `HEAD` sentinel. -/
theorem handleDirty_index_spec (o : Oracle) (s : PassState) (h0 : s.trace = [])
    (q : ComponentPath) :
    lookupHash (HandleDirtyState o s).st.pathHashes q =
      headW (HandleDirtyState o s).st.trace q (lookupHash s.pathHashes q) := by
  refine indexStep_handleDirtyState o s q (lookupHash s.pathHashes q) ?_
  rw [h0]
  rfl


/-- **C6, confirmed.**  HEAD resolution: whenever the pass activates a
component whose hash is the `HEAD` sentinel and the activator returns a
resolved hash (`headW` replays exactly those successful HEAD activations,
the last one winning), the Version Index entry for that path at the end of
the pass equals the resolved hash the activator returned.  Activations with
a non-`HEAD` hash never touch the entry (they are inert for `headW` and for
the index alike, by `handleDirty_index_spec`). -/
theorem claim_C6 (o : Oracle) (s : PassState) (q : ComponentPath) (rh : Hash)
    (h0 : s.trace = [])
    (hhead : headW (HandleDirtyState o s).st.trace q none = some rh) :
    lookupHash (HandleDirtyState o s).st.pathHashes q = some rh := by
  rw [handleDirty_index_spec o s h0 q, headW_base q _ _, hhead]

/-- Witness for `claim_C6`: the fresh-deploy run activates `{alice/svc,
HEAD}`, the activator resolves it to `"h9"`, and the index entry afterward
is `"h9"`. -/
theorem claim_C6_witness :
    lookupHash (HandleDirtyState oC6 sC6).st.pathHashes pAS = some "h9" :=
  claim_C6 oC6 sC6 pAS "h9" rfl (by decide)

/-- **C9, confirmed.**  Frame: a pass mutates the Version Index only by
writing resolved hashes at paths it deployed with the `HEAD` sentinel; for
every path with no successful HEAD-sentinel activation in the pass's trace,
the index entry after the pass equals the entry before it. -/
theorem claim_C9 (o : Oracle) (s : PassState) (q : ComponentPath)
    (h0 : s.trace = [])
    (hnone : headW (HandleDirtyState o s).st.trace q none = none) :
    lookupHash (HandleDirtyState o s).st.pathHashes q = lookupHash s.pathHashes q := by
  rw [handleDirty_index_spec o s h0 q, headW_base q _ _, hnone]

/-- Witness for `claim_C9`: in the fresh-deploy run, a path that is never
activated keeps its (absent) index entry. -/
theorem claim_C9_witness :
    lookupHash (HandleDirtyState oC6 sC6).st.pathHashes ⟨"bob", "x"⟩ =
      lookupHash sC6.pathHashes ⟨"bob", "x"⟩ :=
  claim_C9 oC6 sC6 ⟨"bob", "x"⟩ rfl (by decide)

/-- **C1, counterexample.**  One worker runs the wrong version `h1` of the
desired path and the index says `h2`, so Phase 3's "everyone runs it" branch
fires.  The claim says the branch first deactivates the target's currently
running wrong version — the `ComponentID` with hash `h1`.  The code instead
issues `Deactivate` with `compID` itself: the first (and only pre-`Activate`)
`Deactivate` of the pass carries the *correct* hash `h2`, not `h1`. -/
theorem claim_C1_counterexample :
    firstDeactID (HandleDirtyState oC1 sC1).st.trace = some ⟨"alice", "svc", "h2"⟩
    ∧ (⟨"alice", "svc", "h2"⟩ : ComponentID) ≠ ⟨"alice", "svc", "h1"⟩
    ∧ (HandleDirtyState oC1 sC1).st.trace =
        [.status 0 none, .status 0 none, .status 0 none,
         .deactivate 0 ⟨"alice", "svc", "h2"⟩ (.ok ()),
         .activate 0 ⟨"alice", "svc", "h2"⟩ (.ok "h2"),
         .status 0 none,
         .deactivate 0 ⟨"alice", "svc", "h1"⟩ (.ok ())] :=
  ⟨rfl, by decide, rfl⟩

end V9
